import Mathlib

/-!
Verification development for the Diff_PDF comparison engine
(`src/core/engine.py` and `src/ui/main_window.py`).

The Python code is shallowly embedded: pixel buffers are width/height plus a
pixel function, machine bytes are `Nat`, floats are modelled as exact
rationals (`ℚ`), and code that raises a Python exception is modelled with
`Except`.  External collaborators (PyMuPDF rasterisation, PIL conversion,
Python `difflib`) are embedded by their documented deterministic behaviour:
PIL's RGB→L conversion is the ITU-R 601-2 fixed-point formula used by PIL
(`(19595*r + 38470*g + 7471*b + 0x8000) >> 16`), and `difflib.SequenceMatcher`
is embedded including its default autojunk heuristic.
-/

/-- An RGB pixel; channel values are bytes (`Nat`, 0..255 in practice). -/
structure RGB where
  r : Nat
  g : Nat
  b : Nat
deriving DecidableEq, Repr

/-- A pixel buffer as handed to `compare_visual`: width, height and a
row-major pixel lookup (`pixel x y` is the pixel in column `x`, row `y`). -/
structure PixelBuf where
  width : Nat
  height : Nat
  pixel : Nat → Nat → RGB

/-- One diff rectangle as appended to `self.diff_boxes` in
`compare_visual`: `(real_x, real_y, grid, grid)`. -/
structure Region where
  x : Nat
  y : Nat
  w : Nat
  h : Nat
deriving DecidableEq, Repr

/-- `ImageChops.difference`: per-channel absolute difference. -/
def chanDiff (p q : RGB) : RGB :=
  ⟨max p.r q.r - min p.r q.r, max p.g q.g - min p.g q.g, max p.b q.b - min p.b q.b⟩

/-- PIL `convert("L")`: ITU-R 601-2 luma, fixed point as implemented by PIL:
`L = (19595*r + 38470*g + 7471*b + 0x8000) >> 16`. -/
def luma (p : RGB) : Nat :=
  (19595 * p.r + 38470 * p.g + 7471 * p.b + 32768) / 65536

/-- One entry of `diff_arr = np.array(diff.convert("L"))`: the luma of the
per-channel absolute difference of the two buffers at `(x, y)`. -/
def lumaDelta (A B : PixelBuf) (x y : Nat) : Nat :=
  luma (chanDiff (A.pixel x y) (B.pixel x y))

/-- The zero-padded difference map (`np.pad(diff_arr, ..., mode='constant')`):
outside the true image bounds the delta is the pad value 0. -/
def paddedDelta (A B : PixelBuf) (x y : Nat) : Nat :=
  if x < A.width ∧ y < A.height then lumaDelta A B x y else 0

/-- `blocks.max(axis=(1, 3))` for cell `(cx, cy)`: the maximum of the padded
difference map over the `grid × grid` cell whose top-left pixel is
`(cx*grid, cy*grid)`. -/
def cellMax (A B : PixelBuf) (grid cx cy : Nat) : Nat :=
  (Finset.range grid ×ˢ Finset.range grid).sup fun d =>
    paddedDelta A B (cx * grid + d.1) (cy * grid + d.2)

/-- The padded extent `n + (grid - n % grid) % grid` (the code's
`h + pad_h` / `w + pad_w`). -/
def padTo (n grid : Nat) : Nat := n + (grid - n % grid) % grid

/-- `diff.getbbox()` is `None` iff the difference image is all zero, i.e. the
two buffers agree on every pixel inside their (common) bounds. -/
def pixEq (A B : PixelBuf) : Prop :=
  ∀ x < A.width, ∀ y < A.height, A.pixel x y = B.pixel x y

instance (A B : PixelBuf) : Decidable (pixEq A B) := by
  unfold pixEq; infer_instance

/-- The grid reduction and emission loop of `compare_visual` (lines 54-72):
cells are scanned row-major (`np.where` C order: `y` outer, `x` inner); a cell
is emitted when its padded maximum exceeds the threshold and its top-left
corner lies inside the true image; the emitted rectangle is always
`(cx*grid, cy*grid, grid, grid)`. -/
def regionsOf (A B : PixelBuf) (grid thr : Nat) : List Region :=
  (List.range (padTo A.height grid / grid)).flatMap fun cy =>
    (List.range (padTo A.width grid / grid)).filterMap fun cx =>
      if thr < cellMax A B grid cx cy ∧ cx * grid < A.width ∧ cy * grid < A.height
      then some ⟨cx * grid, cy * grid, grid, grid⟩ else none

/-- The pixel-level body of `compare_visual` (lines 44-72).  The dimension
guard returns with the (already cleared) region list; `diff.getbbox()`
short-circuits identical images before any grid arithmetic.  The caller
passes `grid = self.grid_size` and `thr = 20` (the literal in
`block_max > 20`). -/
def compareVisualCore (A B : PixelBuf) (grid thr : Nat) : List Region :=
  if A.width = B.width ∧ A.height = B.height then
    if pixEq A B then [] else regionsOf A B grid thr
  else []

/-! ### Arithmetic facts about the padded grid -/

theorem padTo_mod (n : Nat) {grid : Nat} (hg : 0 < grid) : padTo n grid % grid = 0 := by
  unfold padTo
  rcases Nat.eq_zero_or_pos (n % grid) with h | h
  · simp [h, Nat.add_mod, Nat.mod_self]
  · have hlt : n % grid < grid := Nat.mod_lt _ hg
    have hmod : (grid - n % grid) % grid = grid - n % grid := Nat.mod_eq_of_lt (by omega)
    rw [hmod]
    have h2 : n + (grid - n % grid) = grid * (n / grid) + grid := by
      have hdm := Nat.div_add_mod n grid
      omega
    have h3 : grid * (n / grid) + grid = grid * (n / grid + 1) := by ring
    rw [h2, h3, Nat.mul_mod_right]

theorem le_padTo (n grid : Nat) : n ≤ padTo n grid := Nat.le_add_right _ _

theorem padTo_lt (n : Nat) {grid : Nat} (hg : 0 < grid) : padTo n grid < n + grid := by
  unfold padTo
  have : (grid - n % grid) % grid < grid := Nat.mod_lt _ hg
  omega

/-- A cell column index is inside the padded cell count iff its top-left
`x`-coordinate is inside the padded extent. -/
theorem lt_cells_iff {n grid c : Nat} (hg : 0 < grid) :
    c < padTo n grid / grid ↔ c * grid < padTo n grid := by
  have hdvd : grid ∣ padTo n grid := Nat.dvd_of_mod_eq_zero (padTo_mod n hg)
  rw [Nat.lt_div_iff_mul_lt hdvd, Nat.mul_comm]

/-- Cells that start inside the true extent are inside the padded cell
count, and a cell starting inside the padded extent starts less than one
grid short of the true extent. -/
theorem cell_start_lt {n grid c : Nat} (hg : 0 < grid) :
    c < padTo n grid / grid ↔ c * grid < n + grid ∧ (n ≤ c * grid → c * grid < padTo n grid) := by
  rw [lt_cells_iff hg]
  constructor
  · intro h
    exact ⟨lt_of_lt_of_le h (le_of_lt (padTo_lt n hg)), fun _ => h⟩
  · intro ⟨h1, h2⟩
    rcases Nat.lt_or_ge (c * grid) n with h | h
    · exact lt_of_lt_of_le h (le_padTo n grid)
    · exact h2 h

/-! ### Membership in the emitted region list -/

theorem mem_regionsOf {A B : PixelBuf} {grid thr : Nat} (hg : 0 < grid) {r : Region} :
    r ∈ regionsOf A B grid thr ↔
      ∃ cx cy, r = ⟨cx * grid, cy * grid, grid, grid⟩ ∧
        cx * grid < A.width ∧ cy * grid < A.height ∧ thr < cellMax A B grid cx cy := by
  unfold regionsOf
  simp only [List.mem_flatMap, List.mem_filterMap, List.mem_range]
  constructor
  · rintro ⟨cy, hcy, cx, hcx, hif⟩
    split at hif
    · rename_i hc
      exact ⟨cx, cy, (Option.some_inj.mp hif).symm, hc.2.1, hc.2.2, hc.1⟩
    · exact absurd hif (by simp)
  · rintro ⟨cx, cy, hr, hx, hy, hmax⟩
    refine ⟨cy, ?_, cx, ?_, ?_⟩
    · exact (lt_cells_iff hg).mpr (lt_of_lt_of_le hy (le_padTo _ _))
    · exact (lt_cells_iff hg).mpr (lt_of_lt_of_le hx (le_padTo _ _))
    · rw [if_pos ⟨hmax, hx, hy⟩, hr]

/-! ### The padded cell maximum equals the clipped cell maximum -/

/-- The maximum luma delta over the part of cell `(cx, cy)` that lies inside
the true (unpadded) image. -/
def cellMaxClipped (A B : PixelBuf) (grid cx cy : Nat) : Nat :=
  (Finset.range (min grid (A.width - cx * grid)) ×ˢ
   Finset.range (min grid (A.height - cy * grid))).sup fun d =>
    lumaDelta A B (cx * grid + d.1) (cy * grid + d.2)

/-- Zero padding never changes a cell's maximum: the padded value is 0
outside the true bounds and `Nat` suprema start at 0. -/
theorem cellMax_eq_clipped (A B : PixelBuf) (grid cx cy : Nat) :
    cellMax A B grid cx cy = cellMaxClipped A B grid cx cy := by
  apply Nat.le_antisymm
  · apply Finset.sup_le
    rintro ⟨dx, dy⟩ hd
    simp only [Finset.mem_product, Finset.mem_range] at hd
    unfold paddedDelta
    split
    · rename_i hin
      apply Finset.le_sup (f := fun d : Nat × Nat =>
        lumaDelta A B (cx * grid + d.1) (cy * grid + d.2))
      simp only [Finset.mem_product, Finset.mem_range, Nat.lt_min]
      exact ⟨⟨hd.1, by omega⟩, ⟨hd.2, by omega⟩⟩
    · exact Nat.zero_le _
  · apply Finset.sup_le
    rintro ⟨dx, dy⟩ hd
    simp only [Finset.mem_product, Finset.mem_range, Nat.lt_min] at hd
    have hmem : (dx, dy) ∈ Finset.range grid ×ˢ Finset.range grid :=
      Finset.mem_product.mpr ⟨Finset.mem_range.mpr hd.1.1, Finset.mem_range.mpr hd.2.1⟩
    have hle := Finset.le_sup (f := fun d : Nat × Nat =>
      paddedDelta A B (cx * grid + d.1) (cy * grid + d.2)) hmem
    simp only [paddedDelta] at hle
    rwa [if_pos ⟨by omega, by omega⟩] at hle

/-! ### Identity and symmetry of the raster diff -/

theorem pixEq_refl (A : PixelBuf) : pixEq A A := fun _ _ _ _ => rfl

theorem chanDiff_comm (p q : RGB) : chanDiff p q = chanDiff q p := by
  unfold chanDiff
  rw [Nat.max_comm p.r, Nat.min_comm p.r, Nat.max_comm p.g, Nat.min_comm p.g,
    Nat.max_comm p.b, Nat.min_comm p.b]

theorem lumaDelta_comm (A B : PixelBuf) (x y : Nat) :
    lumaDelta A B x y = lumaDelta B A x y := by
  unfold lumaDelta
  rw [chanDiff_comm]

/-- Claim C6: comparing any pixel buffer with itself yields an empty region
set for every grid size and every threshold.  Because `diff.getbbox()`
short-circuits before any grid arithmetic, this holds even for grid sizes on
which the grid reduction itself would be undefined. -/
theorem identity_diff_empty (A : PixelBuf) (grid thr : Nat) :
    compareVisualCore A A grid thr = [] := by
  unfold compareVisualCore
  rw [if_pos ⟨rfl, rfl⟩, if_pos (pixEq_refl A)]

theorem pixEq_symm {A B : PixelBuf} (hw : A.width = B.width) (hh : A.height = B.height) :
    pixEq A B ↔ pixEq B A := by
  unfold pixEq
  rw [← hw, ← hh]
  constructor
  · intro h x hx y hy
    exact (h x hx y hy).symm
  · intro h x hx y hy
    exact (h x hx y hy).symm

theorem regionsOf_symm {A B : PixelBuf} (hw : A.width = B.width)
    (hh : A.height = B.height) (grid thr : Nat) :
    regionsOf A B grid thr = regionsOf B A grid thr := by
  have hp : ∀ x y, paddedDelta A B x y = paddedDelta B A x y := by
    intro x y
    unfold paddedDelta
    rw [lumaDelta_comm, hw, hh]
  have hc : ∀ cx cy, cellMax A B grid cx cy = cellMax B A grid cx cy := by
    intro cx cy
    unfold cellMax
    exact Finset.sup_congr rfl fun d _ => hp _ _
  unfold regionsOf
  rw [← hw, ← hh]
  apply List.flatMap_congr  -- congruence over the row scan
  intro cy _
  apply List.filterMap_congr
  intro cx _
  rw [hc]

/-- Claim C9: the emitted region set is symmetric in the two buffers, for
every grid size and threshold (the per-pixel absolute difference, the
dimension guard and the identity short-circuit are all symmetric). -/
theorem diff_symm (A B : PixelBuf) (grid thr : Nat) :
    compareVisualCore A B grid thr = compareVisualCore B A grid thr := by
  unfold compareVisualCore
  by_cases hdim : A.width = B.width ∧ A.height = B.height
  · have hdim' : B.width = A.width ∧ B.height = A.height := ⟨hdim.1.symm, hdim.2.symm⟩
    rw [if_pos hdim, if_pos hdim']
    by_cases hpe : pixEq A B
    · rw [if_pos hpe, if_pos ((pixEq_symm hdim.1 hdim.2).mp hpe)]
    · have hpe' : ¬ pixEq B A := fun h => hpe ((pixEq_symm hdim.1 hdim.2).mpr h)
      rw [if_neg hpe, if_neg hpe', regionsOf_symm hdim.1 hdim.2]
  · have hdim' : ¬ (B.width = A.width ∧ B.height = A.height) :=
      fun h => hdim ⟨h.1.symm, h.2.symm⟩
    rw [if_neg hdim, if_neg hdim']

/-! ### Cell maxima of identical images vanish -/

theorem lumaDelta_eq_zero {A B : PixelBuf} (hpe : pixEq A B) {x y : Nat}
    (hx : x < A.width) (hy : y < A.height) : lumaDelta A B x y = 0 := by
  unfold lumaDelta
  rw [hpe x hx y hy]
  unfold chanDiff luma
  simp

theorem cellMaxClipped_eq_zero {A B : PixelBuf} (hpe : pixEq A B) (grid cx cy : Nat) :
    cellMaxClipped A B grid cx cy = 0 := by
  apply Nat.le_zero.mp
  apply Finset.sup_le
  rintro ⟨dx, dy⟩ hd
  simp only [Finset.mem_product, Finset.mem_range, Nat.lt_min] at hd
  exact le_of_eq (lumaDelta_eq_zero hpe (by omega) (by omega))

/-- Claim C4: for equal-dimension buffers the emitted set is characterised
cell by cell: a region is emitted exactly for the cells whose maximum luma
delta over the clipped (true-image) cell area is strictly above the
threshold; the conceptual zero padding never produces a region by itself
(`cellMax_eq_clipped`), and the reduction is by maximum, not average. -/
theorem region_iff_cellMax (A B : PixelBuf) (grid thr : Nat) (hg : 0 < grid)
    (hw : A.width = B.width) (hh : A.height = B.height) (r : Region) :
    r ∈ compareVisualCore A B grid thr ↔
      ∃ cx cy, r = ⟨cx * grid, cy * grid, grid, grid⟩ ∧
        cx * grid < A.width ∧ cy * grid < A.height ∧
        thr < cellMaxClipped A B grid cx cy := by
  unfold compareVisualCore
  rw [if_pos ⟨hw, hh⟩]
  by_cases hpe : pixEq A B
  · rw [if_pos hpe]
    simp only [List.not_mem_nil, false_iff]
    rintro ⟨cx, cy, _, _, _, hmax⟩
    rw [cellMaxClipped_eq_zero hpe] at hmax
    exact absurd hmax (by omega)
  · rw [if_neg hpe, mem_regionsOf hg]
    constructor
    · rintro ⟨cx, cy, hr, hx, hy, hmax⟩
      exact ⟨cx, cy, hr, hx, hy, by rwa [cellMax_eq_clipped] at hmax⟩
    · rintro ⟨cx, cy, hr, hx, hy, hmax⟩
      exact ⟨cx, cy, hr, hx, hy, by rwa [cellMax_eq_clipped]⟩

/-- Amended claim C1: every emitted region has `(x, y)` a multiple of the
grid size and lying inside the page, but its width and height are always
exactly the grid size — the code appends `(real_x, real_y, grid, grid)` and
never clips the rectangle at the page boundary. -/
theorem region_shape (A B : PixelBuf) (grid thr : Nat) (hg : 0 < grid)
    (r : Region) (hr : r ∈ compareVisualCore A B grid thr) :
    grid ∣ r.x ∧ grid ∣ r.y ∧ r.w = grid ∧ r.h = grid ∧
      r.x < A.width ∧ r.y < A.height := by
  unfold compareVisualCore at hr
  split at hr
  · split at hr
    · exact absurd hr (List.not_mem_nil r)
    · obtain ⟨cx, cy, hreq, hx, hy, -⟩ := (mem_regionsOf hg).mp hr
      subst hreq
      exact ⟨Dvd.intro cx (Nat.mul_comm grid cx), Dvd.intro cy (Nat.mul_comm grid cy),
        rfl, rfl, hx, hy⟩
  · exact absurd hr (List.not_mem_nil r)

/-! ### Embedding of `difflib.SequenceMatcher(None, a, b)`

`compare_text` delegates to Python's `difflib`.  `SequenceMatcher` with
`isjunk=None` and the default `autojunk=True` works as follows: positions of
`b` are indexed in `b2j`; when `len(b) >= 200`, elements occurring more than
`len(b) // 100 + 1` times are "popular" and are dropped from `b2j`;
`find_longest_match` runs a dynamic program over `b2j` (so matched runs avoid
popular elements), then extends the best match with directly equal elements
on both sides (the junk sets proper are empty, so the two junk extension
loops never fire); `get_matching_blocks` recurses on both remainders and
`ratio` is `2 * (total matched) / (len(a) + len(b))`, or `1.0` for two empty
sequences. -/

/-- Length of the longest common prefix of two character lists (a run of
directly equal elements, as used by the match extension loops). -/
def matchLen : List Char → List Char → Nat
  | x :: xs, y :: ys => if x = y then matchLen xs ys + 1 else 0
  | _, _ => 0

/-- Length of the common prefix run restricted to elements of `b` outside
the popular set `P` — the run the `b2j`-driven dynamic program can see. -/
def constrainedLen (P : List Char) : List Char → List Char → Nat
  | x :: xs, y :: ys => if x = y ∧ y ∉ P then constrainedLen P xs ys + 1 else 0
  | _, _ => 0

/-- The autojunk popular set of `b` (`__chain_b`): for `len(b) >= 200`,
elements occurring strictly more than `len(b) // 100 + 1` times. -/
def popular (b : List Char) : List Char :=
  if b.length < 200 then []
  else b.filter fun c => decide (b.length / 100 + 1 < b.count c)

/-- All index pairs `(i, j)` with `i < n`, `j < m`, in lexicographic order
(the scan order of `find_longest_match`: `i` outer ascending, `j` inner
ascending). -/
def idxPairs : Nat → Nat → List (Nat × Nat)
  | 0, _ => []
  | n + 1, m => idxPairs n m ++ (List.range m).map fun j => (n, j)

/-- First maximiser of `f` over a candidate list, with value; `(0, 0, 0)` on
the empty list.  This reproduces `find_longest_match`'s `if k > bestsize`
update rule: a later candidate replaces the best only with a strictly
greater value, so the first maximiser in scan order wins. -/
def pickFirstMax (f : Nat × Nat → Nat) : List (Nat × Nat) → Nat × Nat × Nat
  | [] => (0, 0, 0)
  | p :: rest =>
    let r := pickFirstMax f rest
    if f p < r.2.2 then r else (p.1, p.2, f p)

/-- The dynamic-programming part of `find_longest_match`: the first
longest common run avoiding popular elements of `b`. -/
def dpBest (P : List Char) (a b : List Char) : Nat × Nat × Nat :=
  pickFirstMax (fun ij => constrainedLen P (a.drop ij.1) (b.drop ij.2))
    (idxPairs a.length b.length)

/-- `find_longest_match`: the DP best, extended backwards and then forwards
by directly equal elements (`isbjunk` is the junk set proper, which is empty
for `isjunk=None`, so both non-junk extension loops extend over any equal
elements and both junk extension loops are no-ops). -/
def flm (P : List Char) (a b : List Char) : Nat × Nat × Nat :=
  let r := dpBest P a b
  let back := matchLen (a.take r.1).reverse (b.take r.2.1).reverse
  let i := r.1 - back
  let j := r.2.1 - back
  let k := r.2.2 + back
  (i, j, k + matchLen (a.drop (i + k)) (b.drop (j + k)))

/-! ### Elementary facts about match runs -/

theorem matchLen_le_left : ∀ x y : List Char, matchLen x y ≤ x.length
  | [], _ => by simp [matchLen]
  | _ :: _, [] => by simp [matchLen]
  | x :: xs, y :: ys => by
    unfold matchLen
    split
    · simpa using matchLen_le_left xs ys
    · simp

theorem matchLen_le_right : ∀ x y : List Char, matchLen x y ≤ y.length
  | [], _ => by simp [matchLen]
  | _ :: _, [] => by simp [matchLen]
  | x :: xs, y :: ys => by
    unfold matchLen
    split
    · simpa using matchLen_le_right xs ys
    · simp

theorem matchLen_self : ∀ x : List Char, matchLen x x = x.length
  | [] => rfl
  | x :: xs => by
    unfold matchLen
    rw [if_pos rfl, matchLen_self xs]
    rfl

theorem matchLen_nil_left (y : List Char) : matchLen [] y = 0 := by
  cases y <;> rfl

theorem matchLen_nil_right (x : List Char) : matchLen x [] = 0 := by
  cases x <;> rfl

theorem matchLen_getElem? : ∀ (x y : List Char) (t : Nat), t < matchLen x y →
    x[t]? = y[t]?
  | x :: xs, y :: ys, t, ht => by
    unfold matchLen at ht
    split at ht
    · rename_i hxy
      cases t with
      | zero => simp [hxy]
      | succ t =>
        simp only [List.getElem?_cons_succ]
        exact matchLen_getElem? xs ys t (by omega)
    · omega
  | [], y, t, ht => by rw [matchLen_nil_left] at ht; omega
  | x :: xs, [], t, ht => by rw [matchLen_nil_right] at ht; omega

theorem matchLen_cons (x y : Char) (xs ys : List Char) :
    matchLen (x :: xs) (y :: ys) = if x = y then matchLen xs ys + 1 else 0 := rfl

/-- A match run is maximal: immediately after it the lists differ (or end). -/
theorem matchLen_drop_matchLen : ∀ x y : List Char,
    matchLen (x.drop (matchLen x y)) (y.drop (matchLen x y)) = 0
  | [], y => by simp [matchLen_nil_left]
  | x :: xs, [] => by simp [matchLen_nil_right]
  | x :: xs, y :: ys => by
    by_cases hxy : x = y
    · rw [matchLen_cons, if_pos hxy]
      simpa using matchLen_drop_matchLen xs ys
    · rw [matchLen_cons, if_neg hxy]
      simp only [List.drop_zero]
      rw [matchLen_cons, if_neg hxy]

theorem matchLen_pos_iff : ∀ x y : List Char,
    0 < matchLen x y ↔ ∃ c xs ys, x = c :: xs ∧ y = c :: ys
  | [], y => by simp [matchLen_nil_left]
  | x :: xs, [] => by simp [matchLen_nil_right]
  | x :: xs, y :: ys => by
    unfold matchLen
    constructor
    · intro h
      split at h
      · rename_i hxy
        exact ⟨x, xs, ys, rfl, by rw [hxy]⟩
      · omega
    · rintro ⟨c, xs', ys', hx, hy⟩
      cases hx
      cases hy
      simp

theorem constrainedLen_le_matchLen (P : List Char) :
    ∀ x y : List Char, constrainedLen P x y ≤ matchLen x y
  | [], y => by simp [constrainedLen, matchLen_nil_left]
  | x :: xs, [] => by simp [constrainedLen, matchLen_nil_right]
  | x :: xs, y :: ys => by
    unfold constrainedLen matchLen
    split
    · rename_i hc
      rw [if_pos hc.1]
      simpa using constrainedLen_le_matchLen P xs ys
    · simp

theorem constrainedLen_nil_P : ∀ x y : List Char, constrainedLen [] x y = matchLen x y
  | [], y => by cases y <;> rfl
  | x :: xs, [] => rfl
  | x :: xs, y :: ys => by
    unfold constrainedLen matchLen
    simp only [List.not_mem_nil, not_false_iff, and_true]
    split
    · rw [constrainedLen_nil_P xs ys]
    · rfl

/-- Runs are dominated by the diagonal run on the first list. -/
theorem constrainedLen_le_diag_left (P : List Char) :
    ∀ x y : List Char, constrainedLen P x y ≤ constrainedLen P x x
  | [], y => by simp [constrainedLen]
  | x :: xs, [] => by simp [constrainedLen]
  | x :: xs, y :: ys => by
    unfold constrainedLen
    split
    · rename_i hc
      rw [if_pos ⟨rfl, hc.1 ▸ hc.2⟩]
      simpa using constrainedLen_le_diag_left P xs ys
    · simp

/-- Runs are dominated by the diagonal run on the second list. -/
theorem constrainedLen_le_diag_right (P : List Char) :
    ∀ x y : List Char, constrainedLen P x y ≤ constrainedLen P y y
  | [], y => by simp [constrainedLen]
  | x :: xs, [] => by simp [constrainedLen]
  | x :: xs, y :: ys => by
    unfold constrainedLen
    split
    · rename_i hc
      rw [if_pos ⟨rfl, hc.2⟩]
      simpa using constrainedLen_le_diag_right P xs ys
    · simp

/-! ### The first-maximiser fold -/

/-- Strict lexicographic order on index pairs — the scan order of
`find_longest_match`. -/
def lexLT (p q : Nat × Nat) : Prop :=
  p.1 < q.1 ∨ (p.1 = q.1 ∧ p.2 < q.2)

/-- Reflexive lexicographic order on index pairs. -/
def lexLE (p q : Nat × Nat) : Prop := p = q ∨ lexLT p q

theorem lexLE_zero (p : Nat × Nat) : lexLE (0, 0) p := by
  rcases p with ⟨i, j⟩
  rcases Nat.eq_zero_or_pos i with hi | hi
  · rcases Nat.eq_zero_or_pos j with hj | hj
    · exact Or.inl (by simp [hi, hj])
    · exact Or.inr (Or.inr ⟨by simp [hi], by simpa using hj⟩)
  · exact Or.inr (Or.inl (by simpa using hi))

theorem pickFirstMax_cons (f : Nat × Nat → Nat) (q : Nat × Nat) (rest : List (Nat × Nat)) :
    pickFirstMax f (q :: rest) =
      if f q < (pickFirstMax f rest).2.2 then pickFirstMax f rest
      else (q.1, q.2, f q) := rfl

theorem pickFirstMax_le (f : Nat × Nat → Nat) :
    ∀ L : List (Nat × Nat), ∀ p ∈ L, f p ≤ (pickFirstMax f L).2.2 := by
  intro L
  induction L with
  | nil => intro p hp; exact absurd hp (List.not_mem_nil p)
  | cons q rest ih =>
    intro p hp
    rw [pickFirstMax_cons]
    split
    · rename_i hlt
      rcases List.mem_cons.mp hp with h | h
      · subst h; omega
      · exact ih p h
    · rename_i hge
      rcases List.mem_cons.mp hp with h | h
      · subst h; simp
      · have := ih p h
        simp only
        omega

theorem pickFirstMax_cases (f : Nat × Nat → Nat) :
    ∀ L : List (Nat × Nat), pickFirstMax f L = (0, 0, 0) ∨
      ∃ p ∈ L, pickFirstMax f L = (p.1, p.2, f p) := by
  intro L
  induction L with
  | nil => exact Or.inl rfl
  | cons q rest ih =>
    rw [pickFirstMax_cons]
    split
    · rename_i hlt
      rcases ih with h | ⟨p, hp, h⟩
      · exact Or.inl h
      · exact Or.inr ⟨p, List.mem_cons_of_mem q hp, h⟩
    · exact Or.inr ⟨q, List.mem_cons_self q rest, rfl⟩

/-- The fold keeps the scan-first maximiser: any member attaining the
maximal value is lexicographically at or after the returned pair, provided
the candidate list is scanned in strictly increasing lexicographic order. -/
theorem pickFirstMax_first (f : Nat × Nat → Nat) :
    ∀ L : List (Nat × Nat), L.Pairwise lexLT →
      ∀ p ∈ L, f p = (pickFirstMax f L).2.2 →
        lexLE ((pickFirstMax f L).1, (pickFirstMax f L).2.1) p := by
  intro L
  induction L with
  | nil => intro _ p hp; exact absurd hp (List.not_mem_nil p)
  | cons q rest ih =>
    intro hpw p hp hfp
    have hpw' := (List.pairwise_cons.mp hpw).2
    have hqr := (List.pairwise_cons.mp hpw).1
    revert hfp
    rw [pickFirstMax_cons]
    split
    · rename_i hlt
      intro hfp
      rcases List.mem_cons.mp hp with h | h
      · subst h; omega
      · exact ih hpw' p h hfp
    · rename_i hge
      intro hfp
      rcases List.mem_cons.mp hp with h | h
      · subst h
        exact Or.inl rfl
      · simp only at hfp
        exact Or.inr (hqr p h)

/-! ### The candidate list -/

theorem mem_idxPairs : ∀ (n m : Nat) (p : Nat × Nat),
    p ∈ idxPairs n m ↔ p.1 < n ∧ p.2 < m := by
  intro n
  induction n with
  | zero => intro m p; simp [idxPairs]
  | succ n ih =>
    intro m p
    unfold idxPairs
    rw [List.mem_append, ih m p]
    simp only [List.mem_map, List.mem_range]
    constructor
    · rintro (⟨h1, h2⟩ | ⟨j, hj, hp⟩)
      · exact ⟨by omega, h2⟩
      · rw [← hp]; exact ⟨by omega, hj⟩
    · rintro ⟨h1, h2⟩
      rcases Nat.lt_or_ge p.1 n with h | h
      · exact Or.inl ⟨h, h2⟩
      · have : p.1 = n := by omega
        exact Or.inr ⟨p.2, h2, by rw [← this]⟩

theorem idxPairs_pairwise : ∀ n m : Nat, (idxPairs n m).Pairwise lexLT := by
  intro n
  induction n with
  | zero => intro m; simp [idxPairs]
  | succ n ih =>
    intro m
    unfold idxPairs
    rw [List.pairwise_append]
    refine ⟨ih m, ?_, ?_⟩
    · rw [List.pairwise_map]
      exact (List.pairwise_lt_range m).imp fun h => Or.inr ⟨rfl, h⟩
    · intro p hp q hq
      obtain ⟨hp1, -⟩ := (mem_idxPairs n m p).mp hp
      obtain ⟨j, -, hq'⟩ := List.mem_map.mp hq
      exact Or.inl (by rw [← hq']; exact hp1)

/-! ### Properties of the dynamic-programming best match -/

theorem constrainedLen_nil_left (P : List Char) (y : List Char) :
    constrainedLen P [] y = 0 := by
  cases y <;> rfl

theorem constrainedLen_nil_right (P : List Char) (x : List Char) :
    constrainedLen P x [] = 0 := by
  cases x <;> rfl

/-- Every run anywhere in the two lists is bounded by the DP best value
(`find_longest_match` maximality); stated for all offsets, out-of-range
offsets having empty runs. -/
theorem dpBest_le (P : List Char) (a b : List Char) (i j : Nat) :
    constrainedLen P (a.drop i) (b.drop j) ≤ (dpBest P a b).2.2 := by
  unfold dpBest
  rcases Nat.lt_or_ge i a.length with hi | hi
  · rcases Nat.lt_or_ge j b.length with hj | hj
    · exact pickFirstMax_le (fun ij => constrainedLen P (a.drop ij.1) (b.drop ij.2)) _
        (i, j) ((mem_idxPairs _ _ (i, j)).mpr ⟨hi, hj⟩)
    · rw [List.drop_eq_nil_of_le hj, constrainedLen_nil_right]
      exact Nat.zero_le _
  · rw [List.drop_eq_nil_of_le hi, constrainedLen_nil_left]
    exact Nat.zero_le _

/-- The DP best value really is the run at the returned offsets. -/
theorem dpBest_genuine (P : List Char) (a b : List Char) :
    (dpBest P a b).2.2 =
      constrainedLen P (a.drop (dpBest P a b).1) (b.drop (dpBest P a b).2.1) := by
  rcases pickFirstMax_cases
    (fun ij => constrainedLen P (a.drop ij.1) (b.drop ij.2)) (idxPairs a.length b.length)
    with h | ⟨p, hp, h⟩
  · unfold dpBest
    rw [h]
    have h0 := dpBest_le P a b 0 0
    unfold dpBest at h0
    rw [h] at h0
    simp only [List.drop_zero] at h0 ⊢
    omega
  · unfold dpBest
    rw [h]

theorem dpBest_mem_of_pos (P : List Char) (a b : List Char)
    (hk : 0 < (dpBest P a b).2.2) :
    (dpBest P a b).1 < a.length ∧ (dpBest P a b).2.1 < b.length := by
  rcases pickFirstMax_cases
    (fun ij => constrainedLen P (a.drop ij.1) (b.drop ij.2)) (idxPairs a.length b.length)
    with h | ⟨p, hp, h⟩
  · unfold dpBest at hk
    rw [h] at hk
    exact absurd hk (by simp)
  · have hm := (mem_idxPairs a.length b.length p).mp hp
    unfold dpBest
    rw [h]
    exact hm

theorem dpBest_bounds (P : List Char) (a b : List Char) :
    (dpBest P a b).1 + (dpBest P a b).2.2 ≤ a.length ∧
    (dpBest P a b).2.1 + (dpBest P a b).2.2 ≤ b.length := by
  rcases Nat.eq_zero_or_pos (dpBest P a b).2.2 with h0 | h0
  · rcases pickFirstMax_cases
      (fun ij => constrainedLen P (a.drop ij.1) (b.drop ij.2)) (idxPairs a.length b.length)
      with h | ⟨p, hp, h⟩
    · unfold dpBest
      rw [h]
      simp
    · have hm := (mem_idxPairs a.length b.length p).mp hp
      unfold dpBest at h0 ⊢
      rw [h] at h0 ⊢
      simp only at h0
      simp only [h0]
      omega
  · have hmem := dpBest_mem_of_pos P a b h0
    have hg := dpBest_genuine P a b
    constructor
    · have h1 : constrainedLen P (a.drop (dpBest P a b).1) (b.drop (dpBest P a b).2.1)
          ≤ a.length - (dpBest P a b).1 := by
        calc constrainedLen P (a.drop (dpBest P a b).1) (b.drop (dpBest P a b).2.1)
            ≤ matchLen (a.drop (dpBest P a b).1) (b.drop (dpBest P a b).2.1) :=
              constrainedLen_le_matchLen _ _ _
          _ ≤ (a.drop (dpBest P a b).1).length := matchLen_le_left _ _
          _ = a.length - (dpBest P a b).1 := List.length_drop _ _
      omega
    · have h1 : constrainedLen P (a.drop (dpBest P a b).1) (b.drop (dpBest P a b).2.1)
          ≤ b.length - (dpBest P a b).2.1 := by
        calc constrainedLen P (a.drop (dpBest P a b).1) (b.drop (dpBest P a b).2.1)
            ≤ matchLen (a.drop (dpBest P a b).1) (b.drop (dpBest P a b).2.1) :=
              constrainedLen_le_matchLen _ _ _
          _ ≤ (b.drop (dpBest P a b).2.1).length := matchLen_le_right _ _
          _ = b.length - (dpBest P a b).2.1 := List.length_drop _ _
      omega

/-- `find_longest_match` scan-first property for the DP part. -/
theorem dpBest_first (P : List Char) (a b : List Char) (i j : Nat)
    (hi : i < a.length) (hj : j < b.length)
    (hf : constrainedLen P (a.drop i) (b.drop j) = (dpBest P a b).2.2) :
    lexLE ((dpBest P a b).1, (dpBest P a b).2.1) (i, j) :=
  pickFirstMax_first _ _ (idxPairs_pairwise _ _) (i, j)
    ((mem_idxPairs _ _ (i, j)).mpr ⟨hi, hj⟩) hf

/-- On a self-comparison the DP best lies on the diagonal: any off-diagonal
run is dominated by a diagonal run strictly earlier in scan order. -/
theorem dpBest_diag (P : List Char) (a : List Char) :
    (dpBest P a a).1 = (dpBest P a a).2.1 := by
  rcases Nat.eq_zero_or_pos (dpBest P a a).2.2 with h0 | h0
  · rcases pickFirstMax_cases
      (fun ij => constrainedLen P (a.drop ij.1) (a.drop ij.2)) (idxPairs a.length a.length)
      with h | ⟨p, hp, h⟩
    · unfold dpBest
      rw [h]
    · -- value 0 at p: the pair (0, 0) also attains the maximum 0, and the
      -- scan-first property forces the result at or before (0, 0)
      by_contra hne
      have hm := (mem_idxPairs a.length a.length p).mp hp
      have hla : 0 < a.length := by omega
      have h00 : constrainedLen P (a.drop 0) (a.drop 0) = (dpBest P a a).2.2 := by
        have := dpBest_le P a a 0 0
        omega
      have hfirst := dpBest_first P a a 0 0 hla hla h00
      rcases hfirst with heq | hlt
      · have h1 : (dpBest P a a).1 = 0 := by
          have := congrArg Prod.fst heq
          simpa using this
        have h2 : (dpBest P a a).2.1 = 0 := by
          have := congrArg Prod.snd heq
          simpa using this
        exact hne (by rw [h1, h2])
      · rcases hlt with h | h
        · omega
        · omega
  · by_contra hne
    have hmem := dpBest_mem_of_pos P a a h0
    have hg := dpBest_genuine P a a
    rcases Nat.lt_or_ge (dpBest P a a).1 (dpBest P a a).2.1 with hij | hij
    · -- i < j: the diagonal run at (i, i) dominates and comes earlier
      have hdom : (dpBest P a a).2.2 ≤
          constrainedLen P (a.drop (dpBest P a a).1) (a.drop (dpBest P a a).1) := by
        rw [hg]
        exact constrainedLen_le_diag_left _ _ _
      have hle := dpBest_le P a a (dpBest P a a).1 (dpBest P a a).1
      have heqv : constrainedLen P (a.drop (dpBest P a a).1) (a.drop (dpBest P a a).1)
          = (dpBest P a a).2.2 := by omega
      have hfirst := dpBest_first P a a (dpBest P a a).1 (dpBest P a a).1
        hmem.1 hmem.1 heqv
      rcases hfirst with heq | hlt
      · have := congrArg Prod.snd heq
        simp only at this
        omega
      · rcases hlt with h | h
        · simp only at h
          omega
        · simp only at h
          omega
    · -- j < i (j = i is excluded): the diagonal run at (j, j) dominates
      have hji : (dpBest P a a).2.1 < (dpBest P a a).1 := by omega
      have hdom : (dpBest P a a).2.2 ≤
          constrainedLen P (a.drop (dpBest P a a).2.1) (a.drop (dpBest P a a).2.1) := by
        rw [hg]
        exact constrainedLen_le_diag_right _ _ _
      have hle := dpBest_le P a a (dpBest P a a).2.1 (dpBest P a a).2.1
      have heqv : constrainedLen P (a.drop (dpBest P a a).2.1) (a.drop (dpBest P a a).2.1)
          = (dpBest P a a).2.2 := by omega
      have hfirst := dpBest_first P a a (dpBest P a a).2.1 (dpBest P a a).2.1
        hmem.2 hmem.2 heqv
      rcases hfirst with heq | hlt
      · have := congrArg Prod.fst heq
        simp only at this
        omega
      · rcases hlt with h | h
        · simp only at h
          omega
        · simp only at h
          omega

/-! ### Properties of the extended longest match -/

theorem flm_bounds (P : List Char) (a b : List Char) :
    (flm P a b).1 + (flm P a b).2.2 ≤ a.length ∧
    (flm P a b).2.1 + (flm P a b).2.2 ≤ b.length := by
  rcases hdp : dpBest P a b with ⟨i0, j0, k0⟩
  have hb := dpBest_bounds P a b
  rw [hdp] at hb
  simp only at hb
  simp only [flm, hdp]
  have hBa : matchLen (a.take i0).reverse (b.take j0).reverse ≤ i0 := by
    have h := matchLen_le_left (a.take i0).reverse (b.take j0).reverse
    rwa [List.length_reverse, List.length_take, Nat.min_eq_left (by omega)] at h
  have hBb : matchLen (a.take i0).reverse (b.take j0).reverse ≤ j0 := by
    have h := matchLen_le_right (a.take i0).reverse (b.take j0).reverse
    rwa [List.length_reverse, List.length_take, Nat.min_eq_left (by omega)] at h
  have hFa := matchLen_le_left
    (a.drop (i0 - matchLen (a.take i0).reverse (b.take j0).reverse +
      (k0 + matchLen (a.take i0).reverse (b.take j0).reverse)))
    (b.drop (j0 - matchLen (a.take i0).reverse (b.take j0).reverse +
      (k0 + matchLen (a.take i0).reverse (b.take j0).reverse)))
  have hFb := matchLen_le_right
    (a.drop (i0 - matchLen (a.take i0).reverse (b.take j0).reverse +
      (k0 + matchLen (a.take i0).reverse (b.take j0).reverse)))
    (b.drop (j0 - matchLen (a.take i0).reverse (b.take j0).reverse +
      (k0 + matchLen (a.take i0).reverse (b.take j0).reverse)))
  rw [List.length_drop] at hFa
  rw [List.length_drop] at hFb
  constructor
  · omega
  · omega

theorem flm_self (P : List Char) (a : List Char) : flm P a a = (0, 0, a.length) := by
  rcases hdp : dpBest P a a with ⟨i0, j0, k0⟩
  have hdiag := dpBest_diag P a
  rw [hdp] at hdiag
  simp only at hdiag
  subst hdiag
  have hb := dpBest_bounds P a a
  rw [hdp] at hb
  simp only at hb
  simp only [flm, hdp]
  have hB : matchLen (a.take i0).reverse (a.take i0).reverse = i0 := by
    rw [matchLen_self, List.length_reverse, List.length_take, Nat.min_eq_left (by omega)]
  rw [hB]
  simp only [Nat.sub_self, Nat.zero_add]
  rw [matchLen_self, List.length_drop]
  simp only [Prod.mk.injEq]
  exact ⟨trivial, trivial, by omega⟩

theorem idxPairs_right_nil : ∀ n : Nat, idxPairs n 0 = [] := by
  intro n
  induction n with
  | zero => rfl
  | succ n ih => unfold idxPairs; rw [ih]; rfl

theorem flm_nil_left (P : List Char) (b : List Char) : flm P [] b = (0, 0, 0) := by
  have hdp : dpBest P [] b = (0, 0, 0) := rfl
  simp only [flm, hdp]
  simp [matchLen_nil_left]

theorem flm_nil_right (P : List Char) (a : List Char) : flm P a [] = (0, 0, 0) := by
  have hdp : dpBest P a [] = (0, 0, 0) := by
    unfold dpBest
    simp only [List.length_nil]
    rw [idxPairs_right_nil]
    rfl
  simp only [flm, hdp]
  simp [matchLen_nil_right, matchLen_nil_left]

/-- The extended longest match is a genuine common segment: inside the match
window the two lists agree position by position. -/
theorem flm_genuine (P : List Char) (a b : List Char) :
    ∀ t, t < (flm P a b).2.2 →
      a[(flm P a b).1 + t]? = b[(flm P a b).2.1 + t]? := by
  rcases hdp : dpBest P a b with ⟨i0, j0, k0⟩
  have hb := dpBest_bounds P a b
  rw [hdp] at hb
  simp only at hb
  have hg := dpBest_genuine P a b
  rw [hdp] at hg
  simp only at hg
  simp only [flm, hdp]
  set B := matchLen (a.take i0).reverse (b.take j0).reverse with hBdef
  have hBa : B ≤ i0 := by
    have h := matchLen_le_left (a.take i0).reverse (b.take j0).reverse
    rw [← hBdef, List.length_reverse, List.length_take] at h
    omega
  have hBb : B ≤ j0 := by
    have h := matchLen_le_right (a.take i0).reverse (b.take j0).reverse
    rw [← hBdef, List.length_reverse, List.length_take] at h
    omega
  intro t ht
  rcases Nat.lt_or_ge t B with hzone1 | hz
  · -- backward-extension zone
    have h1 := matchLen_getElem? (a.take i0).reverse (b.take j0).reverse (B - 1 - t)
      (by rw [← hBdef]; omega)
    have hlt_a : B - 1 - t < (a.take i0).length := by
      rw [List.length_take]; omega
    have hlt_b : B - 1 - t < (b.take j0).length := by
      rw [List.length_take]; omega
    rw [List.getElem?_reverse hlt_a, List.getElem?_reverse hlt_b] at h1
    rw [List.length_take, List.length_take] at h1
    rw [List.getElem?_take, List.getElem?_take] at h1
    rw [if_pos (by omega), if_pos (by omega)] at h1
    have e1 : min i0 a.length - 1 - (B - 1 - t) = i0 - B + t := by omega
    have e2 : min j0 b.length - 1 - (B - 1 - t) = j0 - B + t := by omega
    rw [e1, e2] at h1
    exact h1
  · rcases Nat.lt_or_ge t (B + k0) with hzone2 | hzone3
    · -- DP match zone
      have hcm := constrainedLen_le_matchLen P (a.drop i0) (b.drop j0)
      have h1 := matchLen_getElem? (a.drop i0) (b.drop j0) (t - B) (by omega)
      rw [List.getElem?_drop, List.getElem?_drop] at h1
      have e1 : i0 - B + t = i0 + (t - B) := by omega
      have e2 : j0 - B + t = j0 + (t - B) := by omega
      rw [e1, e2]
      exact h1
    · -- forward-extension zone
      have h1 := matchLen_getElem?
        (a.drop (i0 - B + (k0 + B))) (b.drop (j0 - B + (k0 + B)))
        (t - (B + k0)) (by omega)
      rw [List.getElem?_drop, List.getElem?_drop] at h1
      have e1 : i0 - B + t = i0 - B + (k0 + B) + (t - (B + k0)) := by omega
      have e2 : j0 - B + t = j0 - B + (k0 + B) + (t - (B + k0)) := by omega
      rw [e1, e2]
      exact h1

/-- With an empty popular set the DP already finds a maximal run, so both
extension loops are no-ops and `find_longest_match` is exactly the DP best. -/
theorem flm_nil_popular (a b : List Char) : flm [] a b = dpBest [] a b := by
  rcases hdp : dpBest [] a b with ⟨i0, j0, k0⟩
  have hb := dpBest_bounds [] a b
  rw [hdp] at hb
  simp only at hb
  have hg := dpBest_genuine [] a b
  rw [hdp] at hg
  simp only at hg
  rw [constrainedLen_nil_P] at hg
  simp only [flm, hdp]
  have hB : matchLen (a.take i0).reverse (b.take j0).reverse = 0 := by
    by_contra hB0
    have hpos : 0 < matchLen (a.take i0).reverse (b.take j0).reverse :=
      Nat.pos_of_ne_zero hB0
    obtain ⟨c, xs, ys, hx, hy⟩ := (matchLen_pos_iff _ _).mp hpos
    have hi0 : 0 < i0 ∧ 0 < a.length := by
      by_contra hc
      have : a.take i0 = [] := by
        rcases Nat.eq_zero_or_pos i0 with h | h
        · rw [h, List.take_zero]
        · have : a.length = 0 := by omega
          rw [List.eq_nil_of_length_eq_zero this, List.take_nil]
      rw [this] at hx
      exact absurd hx (by simp)
    have hj0 : 0 < j0 ∧ 0 < b.length := by
      by_contra hc
      have : b.take j0 = [] := by
        rcases Nat.eq_zero_or_pos j0 with h | h
        · rw [h, List.take_zero]
        · have : b.length = 0 := by omega
          rw [List.eq_nil_of_length_eq_zero this, List.take_nil]
      rw [this] at hy
      exact absurd hy (by simp)
    -- the characters just before the match are equal
    have hga : a[i0 - 1]? = some c := by
      have h0 : ((a.take i0).reverse)[0]? = some c := by rw [hx]; simp
      rw [List.getElem?_reverse (by rw [List.length_take]; omega)] at h0
      rw [List.getElem?_take] at h0
      rw [if_pos (by rw [List.length_take]; omega)] at h0
      rwa [show (a.take i0).length - 1 - 0 = i0 - 1 from by rw [List.length_take]; omega] at h0
    have hgb : b[j0 - 1]? = some c := by
      have h0 : ((b.take j0).reverse)[0]? = some c := by rw [hy]; simp
      rw [List.getElem?_reverse (by rw [List.length_take]; omega)] at h0
      rw [List.getElem?_take] at h0
      rw [if_pos (by rw [List.length_take]; omega)] at h0
      rwa [show (b.take j0).length - 1 - 0 = j0 - 1 from by rw [List.length_take]; omega] at h0
    -- so the run starting one step earlier is strictly longer
    have hda : a.drop (i0 - 1) = c :: a.drop i0 := by
      have hlt : i0 - 1 < a.length := by omega
      rw [List.drop_eq_getElem_cons hlt]
      have heq : a[i0 - 1] = c := by
        have h2 := List.getElem?_eq_getElem (l := a) hlt
        rw [hga] at h2
        exact (Option.some_inj.mp h2).symm
      rw [heq, show i0 - 1 + 1 = i0 from by omega]
    have hdb : b.drop (j0 - 1) = c :: b.drop j0 := by
      have hlt : j0 - 1 < b.length := by omega
      rw [List.drop_eq_getElem_cons hlt]
      have heq : b[j0 - 1] = c := by
        have h2 := List.getElem?_eq_getElem (l := b) hlt
        rw [hgb] at h2
        exact (Option.some_inj.mp h2).symm
      rw [heq, show j0 - 1 + 1 = j0 from by omega]
    have hlonger : constrainedLen [] (a.drop (i0 - 1)) (b.drop (j0 - 1)) = k0 + 1 := by
      rw [hda, hdb, constrainedLen_nil_P, matchLen_cons, if_pos rfl, ← hg]
    have hle := dpBest_le [] a b (i0 - 1) (j0 - 1)
    rw [hdp] at hle
    simp only at hle
    omega
  rw [hB]
  simp only [Nat.sub_zero, Nat.add_zero]
  have hF : matchLen (a.drop (i0 + k0)) (b.drop (j0 + k0)) = 0 := by
    rw [← List.drop_drop, ← List.drop_drop, hg]
    exact matchLen_drop_matchLen _ _
  rw [hF]
  simp

/-- Total matched length of `get_matching_blocks`, fuelled by the summed
window length (the recursion consumes at least one element of either side
per step, so this fuel always suffices): recursively take the longest match
of the current window and recurse on both remainders.  The popular set is
computed once from the full second sequence and shared by all recursive
calls, exactly as `b2j` is in `difflib`. -/
def mtotalF (P : List Char) : Nat → List Char → List Char → Nat
  | 0, _, _ => 0
  | n + 1, a, b =>
    if (flm P a b).2.2 = 0 then 0
    else
      mtotalF P n (a.take (flm P a b).1) (b.take (flm P a b).2.1) + (flm P a b).2.2 +
      mtotalF P n (a.drop ((flm P a b).1 + (flm P a b).2.2))
        (b.drop ((flm P a b).2.1 + (flm P a b).2.2))

/-- Total matched length of `get_matching_blocks`. -/
def mtotal (P : List Char) (a b : List Char) : Nat :=
  mtotalF P (a.length + b.length) a b

theorem mtotalF_fuel (P : List Char) : ∀ (n m : Nat) (a b : List Char),
    a.length + b.length ≤ n → a.length + b.length ≤ m →
    mtotalF P n a b = mtotalF P m a b := by
  intro n
  induction n with
  | zero =>
    intro m a b hn hm
    have ha : a = [] := List.eq_nil_of_length_eq_zero (by omega)
    subst ha
    cases m with
    | zero => rfl
    | succ m =>
      show 0 = mtotalF P (m + 1) [] b
      unfold mtotalF
      rw [flm_nil_left]
      simp
  | succ n ih =>
    intro m a b hn hm
    cases m with
    | zero =>
      have ha : a = [] := List.eq_nil_of_length_eq_zero (by omega)
      subst ha
      show mtotalF P (n + 1) [] b = 0
      unfold mtotalF
      rw [flm_nil_left]
      simp
    | succ m =>
      show mtotalF P (n + 1) a b = mtotalF P (m + 1) a b
      unfold mtotalF
      by_cases hk : (flm P a b).2.2 = 0
      · rw [if_pos hk, if_pos hk]
      · rw [if_neg hk, if_neg hk]
        have hbd := flm_bounds P a b
        rw [ih m (a.take (flm P a b).1) (b.take (flm P a b).2.1)
              (by rw [List.length_take, List.length_take]; omega)
              (by rw [List.length_take, List.length_take]; omega),
            ih m (a.drop ((flm P a b).1 + (flm P a b).2.2))
              (b.drop ((flm P a b).2.1 + (flm P a b).2.2))
              (by rw [List.length_drop, List.length_drop]; omega)
              (by rw [List.length_drop, List.length_drop]; omega)]

theorem mtotal_eq (P : List Char) (a b : List Char) :
    mtotal P a b =
      if (flm P a b).2.2 = 0 then 0
      else
        mtotal P (a.take (flm P a b).1) (b.take (flm P a b).2.1) + (flm P a b).2.2 +
        mtotal P (a.drop ((flm P a b).1 + (flm P a b).2.2))
          (b.drop ((flm P a b).2.1 + (flm P a b).2.2)) := by
  unfold mtotal
  rcases hn : a.length + b.length with _ | n
  · have ha : a = [] := List.eq_nil_of_length_eq_zero (by omega)
    subst ha
    have hb : b = [] := List.eq_nil_of_length_eq_zero (by omega)
    subst hb
    rw [flm_nil_left]
    rfl
  · have hL : mtotalF P (n + 1) a b =
        if (flm P a b).2.2 = 0 then 0
        else
          mtotalF P n (a.take (flm P a b).1) (b.take (flm P a b).2.1) + (flm P a b).2.2 +
          mtotalF P n (a.drop ((flm P a b).1 + (flm P a b).2.2))
            (b.drop ((flm P a b).2.1 + (flm P a b).2.2)) := rfl
    rw [hL]
    by_cases hk : (flm P a b).2.2 = 0
    · rw [if_pos hk, if_pos hk]
    · rw [if_neg hk, if_neg hk]
      have hbd := flm_bounds P a b
      rw [mtotalF_fuel P n ((a.take (flm P a b).1).length + (b.take (flm P a b).2.1).length)
            (a.take (flm P a b).1) (b.take (flm P a b).2.1)
            (by rw [List.length_take, List.length_take]; omega) (le_refl _),
          mtotalF_fuel P n
            ((a.drop ((flm P a b).1 + (flm P a b).2.2)).length +
             (b.drop ((flm P a b).2.1 + (flm P a b).2.2)).length)
            (a.drop ((flm P a b).1 + (flm P a b).2.2))
            (b.drop ((flm P a b).2.1 + (flm P a b).2.2))
            (by rw [List.length_drop, List.length_drop]; omega) (le_refl _)]

theorem mtotal_nil_left (P : List Char) (b : List Char) : mtotal P [] b = 0 := by
  rw [mtotal_eq, flm_nil_left]
  simp

theorem mtotal_nil_right (P : List Char) (a : List Char) : mtotal P a [] = 0 := by
  rw [mtotal_eq, flm_nil_right]
  simp

/-- The matched total never exceeds either sequence length. -/
theorem mtotal_le (P : List Char) : ∀ (n : Nat) (a b : List Char),
    a.length + b.length ≤ n →
    mtotal P a b ≤ a.length ∧ mtotal P a b ≤ b.length := by
  intro n
  induction n with
  | zero =>
    intro a b hn
    have ha : a = [] := List.eq_nil_of_length_eq_zero (by omega)
    subst ha
    rw [mtotal_nil_left]
    simp
  | succ n ih =>
    intro a b hn
    rw [mtotal_eq]
    split
    · simp
    · rename_i hk
      have hbd := flm_bounds P a b
      have h1 := ih (a.take (flm P a b).1) (b.take (flm P a b).2.1) (by
        rw [List.length_take, List.length_take]
        omega)
      have h2 := ih (a.drop ((flm P a b).1 + (flm P a b).2.2))
        (b.drop ((flm P a b).2.1 + (flm P a b).2.2)) (by
        rw [List.length_drop, List.length_drop]
        omega)
      rw [List.length_take, List.length_take] at h1
      rw [List.length_drop, List.length_drop] at h2
      constructor <;> omega

/-- Self comparison matches everything in one step: the extended longest
match of `a` with itself is the whole sequence. -/
theorem mtotal_self (P : List Char) (a : List Char) : mtotal P a a = a.length := by
  rw [mtotal_eq, flm_self]
  simp only
  split
  · rename_i h
    omega
  · rw [List.take_zero, mtotal_nil_left, Nat.zero_add,
      List.drop_eq_nil_of_le (by omega), mtotal_nil_left]
    omega

/-- The matched middle segments of the longest match are equal as lists. -/
theorem flm_take_eq (P : List Char) (a b : List Char) :
    List.take (flm P a b).2.2 (a.drop (flm P a b).1) =
    List.take (flm P a b).2.2 (b.drop (flm P a b).2.1) := by
  apply List.ext_getElem?
  intro m
  rw [List.getElem?_take, List.getElem?_take]
  split
  · rename_i hm
    rw [List.getElem?_drop, List.getElem?_drop]
    exact flm_genuine P a b m hm
  · rfl

/-- A full-length matched total forces the two sequences to be equal. -/
theorem mtotal_full_eq (P : List Char) : ∀ (n : Nat) (a b : List Char),
    a.length + b.length ≤ n →
    mtotal P a b = a.length → mtotal P a b = b.length → a = b := by
  intro n
  induction n with
  | zero =>
    intro a b hn hMa hMb
    have ha : a = [] := List.eq_nil_of_length_eq_zero (by omega)
    have hb : b = [] := List.eq_nil_of_length_eq_zero (by omega)
    rw [ha, hb]
  | succ n ih =>
    intro a b hn hMa hMb
    rw [mtotal_eq] at hMa hMb
    by_cases hk : (flm P a b).2.2 = 0
    · rw [if_pos hk] at hMa hMb
      have ha : a = [] := List.eq_nil_of_length_eq_zero (by omega)
      have hb : b = [] := List.eq_nil_of_length_eq_zero (by omega)
      rw [ha, hb]
    · rw [if_neg hk] at hMa hMb
      have hbd := flm_bounds P a b
      have hM1 := mtotal_le P ((a.take (flm P a b).1).length + (b.take (flm P a b).2.1).length)
        (a.take (flm P a b).1) (b.take (flm P a b).2.1) (le_refl _)
      have hM2 := mtotal_le P
        ((a.drop ((flm P a b).1 + (flm P a b).2.2)).length +
         (b.drop ((flm P a b).2.1 + (flm P a b).2.2)).length)
        (a.drop ((flm P a b).1 + (flm P a b).2.2))
        (b.drop ((flm P a b).2.1 + (flm P a b).2.2)) (le_refl _)
      rw [List.length_take, List.length_take] at hM1
      rw [List.length_drop, List.length_drop] at hM2
      -- the bounds squeeze every component to its maximum
      have hij : (flm P a b).1 = (flm P a b).2.1 := by omega
      have hfull1a : mtotal P (a.take (flm P a b).1) (b.take (flm P a b).2.1)
          = (a.take (flm P a b).1).length := by
        rw [List.length_take]
        omega
      have hfull1b : mtotal P (a.take (flm P a b).1) (b.take (flm P a b).2.1)
          = (b.take (flm P a b).2.1).length := by
        rw [List.length_take]
        omega
      have hfull2a : mtotal P (a.drop ((flm P a b).1 + (flm P a b).2.2))
            (b.drop ((flm P a b).2.1 + (flm P a b).2.2))
          = (a.drop ((flm P a b).1 + (flm P a b).2.2)).length := by
        rw [List.length_drop]
        omega
      have hfull2b : mtotal P (a.drop ((flm P a b).1 + (flm P a b).2.2))
            (b.drop ((flm P a b).2.1 + (flm P a b).2.2))
          = (b.drop ((flm P a b).2.1 + (flm P a b).2.2)).length := by
        rw [List.length_drop]
        omega
      have htk : a.take (flm P a b).1 = b.take (flm P a b).2.1 :=
        ih _ _ (by rw [List.length_take, List.length_take]; omega) hfull1a hfull1b
      have hdr : a.drop ((flm P a b).1 + (flm P a b).2.2)
          = b.drop ((flm P a b).2.1 + (flm P a b).2.2) :=
        ih _ _ (by rw [List.length_drop, List.length_drop]; omega) hfull2a hfull2b
      have hmid := flm_take_eq P a b
      -- reassemble both lists from the three agreed pieces
      have hsplit_a : List.take (flm P a b).2.2 (a.drop (flm P a b).1) ++
          a.drop ((flm P a b).1 + (flm P a b).2.2) = a.drop (flm P a b).1 := by
        have h := List.take_append_drop (flm P a b).2.2 (a.drop (flm P a b).1)
        rwa [List.drop_drop] at h
      have hsplit_b : List.take (flm P a b).2.2 (b.drop (flm P a b).2.1) ++
          b.drop ((flm P a b).2.1 + (flm P a b).2.2) = b.drop (flm P a b).2.1 := by
        have h := List.take_append_drop (flm P a b).2.2 (b.drop (flm P a b).2.1)
        rwa [List.drop_drop] at h
      calc a = a.take (flm P a b).1 ++ a.drop (flm P a b).1 :=
              (List.take_append_drop _ a).symm
        _ = a.take (flm P a b).1 ++
              (List.take (flm P a b).2.2 (a.drop (flm P a b).1) ++
               a.drop ((flm P a b).1 + (flm P a b).2.2)) := by rw [hsplit_a]
        _ = b.take (flm P a b).2.1 ++
              (List.take (flm P a b).2.2 (b.drop (flm P a b).2.1) ++
               b.drop ((flm P a b).2.1 + (flm P a b).2.2)) := by
              rw [htk, hmid, hdr]
        _ = b.take (flm P a b).2.1 ++ b.drop (flm P a b).2.1 := by rw [hsplit_b]
        _ = b := List.take_append_drop _ b

/-! ### The spec's pure Ratcliff/Obershelp matcher -/

/-- Modelled from the spec: the longest common contiguous substring of the
two windows, ties broken by earliest starting position (spec 4.2: "repeatedly
find the longest common contiguous substring between the unmatched
remainders ... earliest-starting-position tie-break"), with no junk or
popularity heuristic. -/
def specFlm (a b : List Char) : Nat × Nat × Nat :=
  pickFirstMax (fun ij => matchLen (a.drop ij.1) (b.drop ij.2))
    (idxPairs a.length b.length)

theorem specFlm_eq_dpBest (a b : List Char) : specFlm a b = dpBest [] a b := by
  unfold specFlm dpBest
  congr 1
  funext ij
  rw [constrainedLen_nil_P]

/-- Modelled from the spec: total matched length of the recursive
longest-contiguous-match-first alignment (spec 4.2: "recurse on the
remainders on both sides, and sum matched lengths"), fuelled by the summed
window length. -/
def specTotalF : Nat → List Char → List Char → Nat
  | 0, _, _ => 0
  | n + 1, a, b =>
    if (specFlm a b).2.2 = 0 then 0
    else
      specTotalF n (a.take (specFlm a b).1) (b.take (specFlm a b).2.1) + (specFlm a b).2.2 +
      specTotalF n (a.drop ((specFlm a b).1 + (specFlm a b).2.2))
        (b.drop ((specFlm a b).2.1 + (specFlm a b).2.2))

/-- Modelled from the spec: total matched length of the pure
Ratcliff/Obershelp alignment. -/
def specTotal (a b : List Char) : Nat := specTotalF (a.length + b.length) a b

theorem specFlm_nil_left (b : List Char) : specFlm [] b = (0, 0, 0) := by
  rw [specFlm_eq_dpBest, ← flm_nil_popular, flm_nil_left]

theorem specFlm_bounds (a b : List Char) :
    (specFlm a b).1 + (specFlm a b).2.2 ≤ a.length ∧
    (specFlm a b).2.1 + (specFlm a b).2.2 ≤ b.length := by
  rw [specFlm_eq_dpBest]
  exact dpBest_bounds [] a b

theorem specTotalF_fuel : ∀ (n m : Nat) (a b : List Char),
    a.length + b.length ≤ n → a.length + b.length ≤ m →
    specTotalF n a b = specTotalF m a b := by
  intro n
  induction n with
  | zero =>
    intro m a b hn hm
    have ha : a = [] := List.eq_nil_of_length_eq_zero (by omega)
    subst ha
    cases m with
    | zero => rfl
    | succ m =>
      show 0 = specTotalF (m + 1) [] b
      unfold specTotalF
      rw [specFlm_nil_left]
      simp
  | succ n ih =>
    intro m a b hn hm
    cases m with
    | zero =>
      have ha : a = [] := List.eq_nil_of_length_eq_zero (by omega)
      subst ha
      show specTotalF (n + 1) [] b = 0
      unfold specTotalF
      rw [specFlm_nil_left]
      simp
    | succ m =>
      show specTotalF (n + 1) a b = specTotalF (m + 1) a b
      unfold specTotalF
      by_cases hk : (specFlm a b).2.2 = 0
      · rw [if_pos hk, if_pos hk]
      · rw [if_neg hk, if_neg hk]
        have hbd := specFlm_bounds a b
        rw [ih m (a.take (specFlm a b).1) (b.take (specFlm a b).2.1)
              (by rw [List.length_take, List.length_take]; omega)
              (by rw [List.length_take, List.length_take]; omega),
            ih m (a.drop ((specFlm a b).1 + (specFlm a b).2.2))
              (b.drop ((specFlm a b).2.1 + (specFlm a b).2.2))
              (by rw [List.length_drop, List.length_drop]; omega)
              (by rw [List.length_drop, List.length_drop]; omega)]

theorem specTotal_eq (a b : List Char) :
    specTotal a b =
      if (specFlm a b).2.2 = 0 then 0
      else
        specTotal (a.take (specFlm a b).1) (b.take (specFlm a b).2.1) + (specFlm a b).2.2 +
        specTotal (a.drop ((specFlm a b).1 + (specFlm a b).2.2))
          (b.drop ((specFlm a b).2.1 + (specFlm a b).2.2)) := by
  unfold specTotal
  rcases hn : a.length + b.length with _ | n
  · have ha : a = [] := List.eq_nil_of_length_eq_zero (by omega)
    subst ha
    have hb : b = [] := List.eq_nil_of_length_eq_zero (by omega)
    subst hb
    rw [specFlm_nil_left]
    rfl
  · have hL : specTotalF (n + 1) a b =
        if (specFlm a b).2.2 = 0 then 0
        else
          specTotalF n (a.take (specFlm a b).1) (b.take (specFlm a b).2.1) + (specFlm a b).2.2 +
          specTotalF n (a.drop ((specFlm a b).1 + (specFlm a b).2.2))
            (b.drop ((specFlm a b).2.1 + (specFlm a b).2.2)) := rfl
    rw [hL]
    by_cases hk : (specFlm a b).2.2 = 0
    · rw [if_pos hk, if_pos hk]
    · rw [if_neg hk, if_neg hk]
      have hbd := specFlm_bounds a b
      rw [specTotalF_fuel n ((a.take (specFlm a b).1).length + (b.take (specFlm a b).2.1).length)
            (a.take (specFlm a b).1) (b.take (specFlm a b).2.1)
            (by rw [List.length_take, List.length_take]; omega) (le_refl _),
          specTotalF_fuel n
            ((a.drop ((specFlm a b).1 + (specFlm a b).2.2)).length +
             (b.drop ((specFlm a b).2.1 + (specFlm a b).2.2)).length)
            (a.drop ((specFlm a b).1 + (specFlm a b).2.2))
            (b.drop ((specFlm a b).2.1 + (specFlm a b).2.2))
            (by rw [List.length_drop, List.length_drop]; omega) (le_refl _)]

/-- With an empty popular set — in particular whenever `len(b) < 200`, when
the autojunk heuristic is inert — `difflib`'s matching total coincides with
the spec's pure Ratcliff/Obershelp total. -/
theorem mtotal_nil_popular : ∀ (n : Nat) (a b : List Char),
    a.length + b.length ≤ n → mtotal [] a b = specTotal a b := by
  intro n
  induction n with
  | zero =>
    intro a b hn
    have ha : a = [] := List.eq_nil_of_length_eq_zero (by omega)
    subst ha
    rw [mtotal_nil_left, specTotal_eq]
    have : specFlm [] b = (0, 0, 0) := by rw [specFlm_eq_dpBest, ← flm_nil_popular, flm_nil_left]
    rw [this]
    simp
  | succ n ih =>
    intro a b hn
    have hflm : flm [] a b = specFlm a b := by rw [flm_nil_popular, specFlm_eq_dpBest]
    rw [mtotal_eq, specTotal_eq, hflm]
    split
    · rfl
    · rename_i hk
      have hbd := dpBest_bounds [] a b
      rw [← specFlm_eq_dpBest] at hbd
      rw [ih (a.take (specFlm a b).1) (b.take (specFlm a b).2.1) (by
            rw [List.length_take, List.length_take]; omega),
          ih (a.drop ((specFlm a b).1 + (specFlm a b).2.2))
            (b.drop ((specFlm a b).2.1 + (specFlm a b).2.2)) (by
            rw [List.length_drop, List.length_drop]; omega)]

/-! ### The ratio -/

/-- `SequenceMatcher(None, a, b).ratio()`: `2 * M / T` with `M` the matched
total and `T` the total length, or `1.0` when both sequences are empty
(`_calculate_ratio`).  Floats are modelled as exact rationals. -/
def seqRatio (a b : List Char) : ℚ :=
  if a.length + b.length = 0 then 1
  else 2 * (mtotal (popular b) a b : ℚ) / ((a.length : ℚ) + (b.length : ℚ))

/-- Modelled from the spec: the ratio of the pure Ratcliff/Obershelp
alignment, `2 * M / T` (spec 4.2). -/
def specRatio (a b : List Char) : ℚ :=
  if a.length + b.length = 0 then 1
  else 2 * (specTotal a b : ℚ) / ((a.length : ℚ) + (b.length : ℚ))

theorem seqRatio_bounds (a b : List Char) : 0 ≤ seqRatio a b ∧ seqRatio a b ≤ 1 := by
  unfold seqRatio
  split
  · norm_num
  · rename_i hT
    have hM := mtotal_le (popular b) (a.length + b.length) a b (le_refl _)
    have hpos : (0 : ℚ) < (a.length : ℚ) + (b.length : ℚ) := by
      exact_mod_cast Nat.pos_of_ne_zero hT
    constructor
    · apply div_nonneg
      · positivity
      · exact le_of_lt hpos
    · rw [div_le_one hpos]
      exact_mod_cast (by omega : 2 * mtotal (popular b) a b ≤ a.length + b.length)

theorem seqRatio_eq_one_iff (a b : List Char) : seqRatio a b = 1 ↔ a = b := by
  unfold seqRatio
  split
  · rename_i hT
    have ha : a = [] := List.eq_nil_of_length_eq_zero (by omega)
    have hb : b = [] := List.eq_nil_of_length_eq_zero (by omega)
    subst ha
    subst hb
    simp
  · rename_i hT
    have hM := mtotal_le (popular b) (a.length + b.length) a b (le_refl _)
    have hpos : (0 : ℚ) < (a.length : ℚ) + (b.length : ℚ) := by
      exact_mod_cast Nat.pos_of_ne_zero hT
    rw [div_eq_one_iff_eq (ne_of_gt hpos)]
    constructor
    · intro h
      have h' : 2 * mtotal (popular b) a b = a.length + b.length := by exact_mod_cast h
      exact mtotal_full_eq (popular b) (a.length + b.length) a b (le_refl _)
        (by omega) (by omega)
    · intro h
      subst h
      rw [mtotal_self]
      push_cast
      ring

theorem seqRatio_single_empty (a b : List Char)
    (h : (a = [] ∧ b ≠ []) ∨ (a ≠ [] ∧ b = [])) : seqRatio a b = 0 := by
  rcases h with ⟨ha, hb⟩ | ⟨ha, hb⟩
  · subst ha
    unfold seqRatio
    rw [if_neg (by simpa using fun hl => hb (List.eq_nil_of_length_eq_zero hl))]
    rw [mtotal_nil_left]
    norm_num
  · subst hb
    unfold seqRatio
    rw [if_neg (by simpa using fun hl => ha (List.eq_nil_of_length_eq_zero hl))]
    rw [mtotal_nil_right]
    norm_num

/-- For second sequences shorter than 200 characters the autojunk popular
set is empty and `ratio` equals the spec's pure Ratcliff/Obershelp ratio. -/
theorem seqRatio_autojunk_inert (a b : List Char) (hb : b.length < 200) :
    seqRatio a b = specRatio a b := by
  have hP : popular b = [] := by unfold popular; rw [if_pos hb]
  unfold seqRatio specRatio
  rw [hP, mtotal_nil_popular (a.length + b.length) a b (le_refl _)]

/-! ### The autojunk counterexample -/

theorem constrainedLen_cons (P : List Char) (x y : Char) (xs ys : List Char) :
    constrainedLen P (x :: xs) (y :: ys) =
      if x = y ∧ y ∉ P then constrainedLen P xs ys + 1 else 0 := rfl

theorem idxPairs_head {n m : Nat} (hn : 0 < n) (hm : 0 < m) :
    ∃ tl, idxPairs n m = (0, 0) :: tl := by
  induction n with
  | zero => omega
  | succ n ih =>
    rcases Nat.eq_zero_or_pos n with hn0 | hn0
    · subst hn0
      rcases m with _ | m
      · omega
      · refine ⟨(List.range (m + 1)).tail.map fun j => (0, j), ?_⟩
        show idxPairs 0 (m + 1) ++ (List.range (m + 1)).map (fun j => (0, j)) = _
        rw [List.range_succ_eq_map]
        simp [idxPairs]
    · obtain ⟨tl, htl⟩ := ih hn0
      refine ⟨tl ++ (List.range m).map fun j => (n, j), ?_⟩
      show idxPairs n m ++ (List.range m).map (fun j => (n, j)) = _
      rw [htl, List.cons_append]

/-- If the best value over a non-empty candidate grid is 0, the fold returns
the all-zero triple (the head `(0, 0)` is never displaced by a tie). -/
theorem pickFirstMax_eq_zero {f : Nat × Nat → Nat} {n m : Nat} (hn : 0 < n) (hm : 0 < m)
    (hk : (pickFirstMax f (idxPairs n m)).2.2 = 0) :
    pickFirstMax f (idxPairs n m) = (0, 0, 0) := by
  obtain ⟨tl, htl⟩ := idxPairs_head hn hm
  rw [htl, pickFirstMax_cons] at hk ⊢
  by_cases hc : f (0, 0) < (pickFirstMax f tl).2.2
  · rw [if_pos hc] at hk ⊢
    omega
  · rw [if_neg hc] at hk ⊢
    simp only at hk ⊢
    rw [hk]

def aEx : List Char := "qz".data

def bEx : List Char :=
  "zzzz".data ++
    ((List.range 66).flatMap fun i => List.replicate 3 (Char.ofNat (160 + i))).take 196

set_option maxRecDepth 10000 in
theorem bEx_len : bEx.length = 200 := by decide

set_option maxRecDepth 10000 in
theorem q_not_mem_bEx : ('q' : Char) ∉ bEx := by decide

set_option maxRecDepth 100000 in
theorem z_popular : ('z' : Char) ∈ popular bEx := by decide

/-- All popularity-constrained runs between the example sequences vanish:
`'q'` does not occur in `bEx` and `'z'` is popular. -/
theorem clEx_zero (i j : Nat) :
    constrainedLen (popular bEx) (aEx.drop i) (bEx.drop j) = 0 := by
  match i with
  | 0 =>
    show constrainedLen (popular bEx) ('q' :: ['z']) (bEx.drop j) = 0
    cases hd : bEx.drop j with
    | nil => rw [constrainedLen_nil_right]
    | cons d ys =>
      have hdm : d ∈ bEx := List.drop_subset j bEx (by rw [hd]; exact List.mem_cons_self d ys)
      rw [constrainedLen_cons, if_neg]
      rintro ⟨hqd, -⟩
      exact q_not_mem_bEx (hqd ▸ hdm)
  | 1 =>
    show constrainedLen (popular bEx) ['z'] (bEx.drop j) = 0
    cases hd : bEx.drop j with
    | nil => rw [constrainedLen_nil_right]
    | cons d ys =>
      rw [constrainedLen_cons, if_neg]
      rintro ⟨hzd, hdP⟩
      exact hdP (hzd ▸ z_popular)
  | i + 2 =>
    rw [List.drop_eq_nil_of_le (by simp [aEx]), constrainedLen_nil_left]

theorem dpBestEx : dpBest (popular bEx) aEx bEx = (0, 0, 0) := by
  have hk : (dpBest (popular bEx) aEx bEx).2.2 = 0 := by
    rw [dpBest_genuine]
    exact clEx_zero _ _
  unfold dpBest at hk ⊢
  exact pickFirstMax_eq_zero (by decide) (by rw [bEx_len]; omega) hk

set_option maxRecDepth 10000 in
theorem flmEx : flm (popular bEx) aEx bEx = (0, 0, 0) := by
  simp only [flm, dpBestEx]
  decide

theorem mtotalEx : mtotal (popular bEx) aEx bEx = 0 := by
  rw [mtotal_eq, flmEx]
  simp

set_option maxRecDepth 10000 in
theorem mlEx_10 : matchLen (aEx.drop 1) (bEx.drop 0) = 1 := by decide

/-- No unconstrained run between the example sequences exceeds length 1. -/
theorem mlEx_le_one (i j : Nat) : matchLen (aEx.drop i) (bEx.drop j) ≤ 1 := by
  match i with
  | 0 =>
    show matchLen ('q' :: ['z']) (bEx.drop j) ≤ 1
    cases hd : bEx.drop j with
    | nil => rw [matchLen_nil_right]; omega
    | cons d ys =>
      have hdm : d ∈ bEx := List.drop_subset j bEx (by rw [hd]; exact List.mem_cons_self d ys)
      rw [matchLen_cons, if_neg]
      · omega
      · intro hqd
        exact q_not_mem_bEx (hqd ▸ hdm)
  | i + 1 =>
    have h := matchLen_le_left (aEx.drop (i + 1)) (bEx.drop j)
    rw [List.length_drop] at h
    have : aEx.length = 2 := by decide
    omega

set_option maxRecDepth 10000 in
theorem specFlmEx : specFlm aEx bEx = (1, 0, 1) := by
  have hmem : ((1, 0) : Nat × Nat) ∈ idxPairs aEx.length bEx.length :=
    (mem_idxPairs _ _ (1, 0)).mpr ⟨by decide, by rw [bEx_len]; omega⟩
  have hk : (specFlm aEx bEx).2.2 = 1 := by
    apply Nat.le_antisymm
    · have hg := dpBest_genuine [] aEx bEx
      rw [← specFlm_eq_dpBest, constrainedLen_nil_P] at hg
      rw [hg]
      exact mlEx_le_one _ _
    · have hle := pickFirstMax_le (fun ij => matchLen (aEx.drop ij.1) (bEx.drop ij.2))
        (idxPairs aEx.length bEx.length) (1, 0) hmem
      simp only at hle
      rw [mlEx_10] at hle
      unfold specFlm
      exact hle
  rcases hr : specFlm aEx bEx with ⟨i, j, k⟩
  rw [hr] at hk
  simp only at hk
  subst hk
  have hg := dpBest_genuine [] aEx bEx
  rw [← specFlm_eq_dpBest, constrainedLen_nil_P, hr] at hg
  simp only at hg
  have hi : i = 1 := by
    rcases Nat.eq_zero_or_pos i with h0 | h0
    · exfalso
      subst h0
      have := mlEx_le_one 0 j
      have hq : matchLen (aEx.drop 0) (bEx.drop j) = 0 := by
        show matchLen ('q' :: ['z']) (bEx.drop j) = 0
        cases hd : bEx.drop j with
        | nil => rw [matchLen_nil_right]
        | cons d ys =>
          have hdm : d ∈ bEx :=
            List.drop_subset j bEx (by rw [hd]; exact List.mem_cons_self d ys)
          rw [matchLen_cons, if_neg]
          intro hqd
          exact q_not_mem_bEx (hqd ▸ hdm)
      omega
    · have hmm := dpBest_mem_of_pos [] aEx bEx (by rw [← specFlm_eq_dpBest, hr]; simp)
      rw [← specFlm_eq_dpBest, hr] at hmm
      simp only at hmm
      have : aEx.length = 2 := by decide
      omega
  subst hi
  have hfirst := dpBest_first [] aEx bEx 1 0 (by decide) (by rw [bEx_len]; omega)
    (by rw [constrainedLen_nil_P, mlEx_10, ← specFlm_eq_dpBest, hr])
  rw [← specFlm_eq_dpBest, hr] at hfirst
  simp only at hfirst
  rcases hfirst with heq | hlt
  · have : j = 0 := by
      have := congrArg Prod.snd heq
      simpa using this
    rw [this]
  · rcases hlt with h | h
    · simp only at h
      omega
    · simp only at h
      omega

set_option maxRecDepth 100000 in
theorem specTotalEx : specTotal aEx bEx = 1 := by
  rw [specTotal_eq, specFlmEx]
  rw [if_neg (by decide)]
  show specTotal (aEx.take 1) (bEx.take 0) + 1 + specTotal (aEx.drop (1 + 1)) (bEx.drop (0 + 1)) = 1
  have h1 : specTotal (aEx.take 1) (bEx.take 0) = 0 := by
    rw [List.take_zero, ← mtotal_nil_popular ((aEx.take 1).length + 0) (aEx.take 1) []
      (by simp), mtotal_nil_right]
  have h2 : specTotal (aEx.drop (1 + 1)) (bEx.drop (0 + 1)) = 0 := by
    have ha : aEx.drop (1 + 1) = [] := by decide
    rw [ha, ← mtotal_nil_popular (0 + (bEx.drop (0 + 1)).length) [] (bEx.drop (0 + 1))
      (by simp), mtotal_nil_left]
  rw [h1, h2]

theorem seqRatioEx : seqRatio aEx bEx = 0 := by
  unfold seqRatio
  rw [if_neg (by rw [bEx_len]; omega), mtotalEx]
  norm_num

theorem specRatioEx : specRatio aEx bEx = 1 / 101 := by
  unfold specRatio
  rw [if_neg (by rw [bEx_len]; omega), specTotalEx,
    show aEx.length = 2 from by decide, bEx_len]
  norm_num

set_option maxRecDepth 10000 in
theorem text_abc_abd : seqRatio ("abc".data) ("abd".data) = 2 * 2 / 6 := by
  unfold seqRatio
  rw [if_neg (by decide)]
  rw [show mtotal (popular ("abd".data)) ("abc".data) ("abd".data) = 2 from by decide]
  rw [show ("abc".data).length = 3 from by decide,
    show ("abd".data).length = 3 from by decide]
  norm_num

/-! ### The engine state (`PDFEngine`) -/

/-- A loaded document as the external `fitz` collaborator provides it: a
page count (`len(doc)`), a rasteriser (`page.get_pixmap(matrix=Matrix(s, s))`
at a display scale) and a text extractor (`page.get_text("text")`). -/
structure Doc where
  pages : Nat
  render : ℚ → Nat → PixelBuf
  text : Nat → List Char

/-- The two document slots (`self.docs[1]` and `self.docs[2]`; the spec's
closed slot enum). -/
inductive Slot
  | one
  | two
deriving DecidableEq

/-- `PDFEngine` state: per-slot document handle and path, the grid size and
the cached diff rectangles (`__init__`, lines 13-17). -/
structure EngineState where
  doc1 : Option Doc
  doc2 : Option Doc
  path1 : String
  path2 : String
  grid_size : Nat
  diff_boxes : List Region

/-- `PDFEngine.__init__`: both slots unset, empty paths, grid size 5, no
cached rectangles. -/
def initEngine : EngineState :=
  { doc1 := none, doc2 := none, path1 := "", path2 := "", grid_size := 5, diff_boxes := [] }

/-- `load_doc` (lines 19-22): store the path, open the document into the
slot and return its page count; `openF` models `fitz.open`. -/
def load_doc (openF : String → Doc) (s : EngineState) (slot : Slot) (path : String) :
    EngineState × Nat :=
  match slot with
  | .one => ({ s with path1 := path, doc1 := some (openF path) }, (openF path).pages)
  | .two => ({ s with path2 := path, doc2 := some (openF path) }, (openF path).pages)

/-- `is_ready` (lines 24-25). -/
def is_ready (s : EngineState) : Bool := s.doc1.isSome && s.doc2.isSome

/-- `compare_visual` (lines 34-72): clears the cache, returns early when a
slot is unset or the page is out of range, renders both pages at scale 1 and
stores the regions of the pixel-level comparison
(grid `self.grid_size`, threshold literal 20). -/
def compare_visual (s : EngineState) (page : Nat) : EngineState :=
  match s.doc1, s.doc2 with
  | some d1, some d2 =>
    if d1.pages ≤ page ∨ d2.pages ≤ page then { s with diff_boxes := [] }
    else { s with diff_boxes :=
      compareVisualCore (d1.render 1 page) (d2.render 1 page) s.grid_size 20 }
  | _, _ => { s with diff_boxes := [] }

/-- The failure mode of an engine call: Python raising `TypeError` from
`len(None)`. -/
inductive EngineError
  | nullDeref
deriving DecidableEq

/-- What `compare_text` returns: either the page-range message or the
`"Match: {ratio*100:.1f}%"` report, modelled as carrying the exact ratio
(the decimal formatting of the percentage is presentation only). -/
inductive TextResult
  | pageRangeError
  | matchPercent (ratio : ℚ)
deriving DecidableEq

/-- `compare_text` (lines 74-81).  `page_num >= len(self.docs[1])` is
evaluated first and Python's `or` short-circuits, so an unset slot raises
`TypeError` from `len(None)` exactly when its `len` is reached. -/
def compare_text (s : EngineState) (page : Nat) : Except EngineError TextResult :=
  match s.doc1 with
  | none => .error .nullDeref
  | some d1 =>
    if d1.pages ≤ page then .ok .pageRangeError
    else
      match s.doc2 with
      | none => .error .nullDeref
      | some d2 =>
        if d2.pages ≤ page then .ok .pageRangeError
        else .ok (.matchPercent (seqRatio (d1.text page) (d2.text page)))

/-! ### The overlay renderer (`get_pixmap`) -/

/-- One rectangle as drawn by the overlay loop: `QRectF(x*scale, y*scale,
w*scale, h*scale)` filled with `QColor(255, 0, 0, alpha)` and no pen. -/
structure DrawnRect where
  x : ℚ
  y : ℚ
  w : ℚ
  h : ℚ
  red : Nat
  green : Nat
  blue : Nat
  alpha : ℤ
deriving DecidableEq

/-- The overlay block of `get_pixmap` (lines 92-97): when diff display is
on, the cache is non-empty and opacity is positive, one filled unstroked red
rectangle is drawn per cached region at the scaled position and size, with
alpha `int(opacity * 2.55)`.  Floats are modelled as exact rationals
(`2.55 = 51/20`) and Python's `int()` truncation is `Int.floor` for the
non-negative values that arise here. -/
def overlayDraw (boxes : List Region) (scale : ℚ) (opacity : Nat) (show_diff : Bool) :
    List DrawnRect :=
  if show_diff = true ∧ boxes ≠ [] ∧ 0 < opacity then
    boxes.map fun r =>
      ⟨(r.x : ℚ) * scale, (r.y : ℚ) * scale, (r.w : ℚ) * scale, (r.h : ℚ) * scale,
        255, 0, 0, ⌊(opacity : ℚ) * (51 / 20)⌋⟩
  else []

/-- `get_pixmap` (lines 83-99): `None` for an unset slot or an out-of-range
page (`if not doc or page_num >= len(doc)`; a 0-page document is falsy in
Python, and then every page index is out of range, so the two conditions
coincide), otherwise the rendered page plus the overlay rectangles. -/
def get_pixmap (s : EngineState) (slot : Slot) (page : Nat) (scale : ℚ)
    (opacity : Nat) (show_diff : Bool) : Option (PixelBuf × List DrawnRect) :=
  match (match slot with | .one => s.doc1 | .two => s.doc2) with
  | none => none
  | some d =>
    if d.pages ≤ page then none
    else some (d.render scale page, overlayDraw s.diff_boxes scale opacity show_diff)

/-! ### The window logic (`DiffApp`) -/

/-- The slice of `DiffApp` state the load/compare logic touches
(`main_window.py` lines 20-22 and 63-64: `curr_page`, `total_pages` and the
mode combo index; rendering, labels and dialogs are presentation only). -/
structure WindowState where
  engine : EngineState
  curr_page : Nat
  total_pages : Nat
  mode : Nat

/-- The window at startup: fresh engine, page 0 of 0, visual mode (the mode
combo only contains "Visual Diff"). -/
def initWindow : WindowState :=
  { engine := initEngine, curr_page := 0, total_pages := 0, mode := 0 }

/-- `len(self.engine.docs[i]) if self.engine.docs[i] else 0`
(`_load_file`, lines 276-277).  A 0-page document is falsy in Python, but
its `len` is 0 as well, so the two branches agree on `Option`. -/
def docLen : Option Doc → Nat
  | some d => d.pages
  | none => 0

/-- `_refresh_comparison` (lines 377-387): a no-op unless both slots are
loaded; in visual mode it recomputes the visual diff for the current page;
in text mode it only prints the text comparison (no state change); the
label update and re-render are presentation only. -/
def refreshComparison (w : WindowState) : WindowState :=
  if is_ready w.engine then
    if w.mode = 0 then { w with engine := compare_visual w.engine w.curr_page }
    else w
  else w

/-- `_load_file` (lines 255-289): load the document into the slot, then
recompute `total_pages` — `min` of the two counts when both slots are
loaded (followed by a comparison refresh), `max` (i.e. the loaded slot's
count) otherwise — and reset the current page; button styling, the
duplicate-file dialog and rendering are presentation only. -/
def loadFile (openF : String → Doc) (w : WindowState) (slot : Slot) (path : String) :
    WindowState :=
  let e := (load_doc openF w.engine slot path).1
  let doc1_len := docLen e.doc1
  let doc2_len := docLen e.doc2
  if is_ready e then
    refreshComparison
      { w with engine := e, total_pages := min doc1_len doc2_len, curr_page := 0 }
  else
    { w with engine := e, total_pages := max doc1_len doc2_len, curr_page := 0 }

/-! ### Concrete pages for the claims -/

/-- An all-white page. -/
def whitePage (w h : Nat) : PixelBuf := ⟨w, h, fun _ _ => ⟨255, 255, 255⟩⟩

/-- An all-black page. -/
def blackPage (w h : Nat) : PixelBuf := ⟨w, h, fun _ _ => ⟨0, 0, 0⟩⟩

/-- A 100×100 all-white page except that the pixel block `[50,55)×[50,55)`
is black (luminance difference 255 against the all-white page). -/
def blockPage : PixelBuf :=
  ⟨100, 100, fun x y =>
    if 50 ≤ x ∧ x < 55 ∧ 50 ≤ y ∧ y < 55 then ⟨0, 0, 0⟩ else ⟨255, 255, 255⟩⟩

set_option maxRecDepth 100000 in
/-- Claim C1 (counterexample): on an 8×8 page with grid size 5 the code
emits the region `(5, 0, 5, 5)`, whose width is not clipped to
`min(G, page_width - x) = 3` — the claimed footprint `(5, 0, 3, 5)` is never
produced. -/
theorem region_not_clipped_cex :
    (⟨5, 0, 5, 5⟩ : Region) ∈ compareVisualCore (whitePage 8 8) (blackPage 8 8) 5 20 ∧
    (Region.mk 5 0 5 5).w ≠ min 5 ((whitePage 8 8).width - (Region.mk 5 0 5 5).x) := by
  decide

set_option maxRecDepth 100000 in
/-- Witness for the amended claim C1 at the 8×8 example: the emitted region
`(5, 0, 5, 5)` is grid-aligned, has the full grid size as width and height,
and starts inside the page. -/
theorem region_shape_witness :
    5 ∣ (Region.mk 5 0 5 5).x ∧ 5 ∣ (Region.mk 5 0 5 5).y ∧
    (Region.mk 5 0 5 5).w = 5 ∧ (Region.mk 5 0 5 5).h = 5 ∧
    (Region.mk 5 0 5 5).x < (whitePage 8 8).width ∧
    (Region.mk 5 0 5 5).y < (whitePage 8 8).height :=
  region_shape (whitePage 8 8) (blackPage 8 8) 5 20 (by decide) ⟨5, 0, 5, 5⟩ (by decide)

theorem compareVisualCore_mismatch {A B : PixelBuf} (g t : Nat)
    (hdim : A.width ≠ B.width ∨ A.height ≠ B.height) : compareVisualCore A B g t = [] := by
  unfold compareVisualCore
  rw [if_neg (by tauto)]

/-- Claim C2: buffers that differ in width or height never produce a
region — the dimension guard makes the pixel comparison empty for every
grid size and threshold, and the engine stores the empty cache (no partial
result). -/
theorem mismatch_no_regions (A B : PixelBuf) (grid thr : Nat)
    (hdim : A.width ≠ B.width ∨ A.height ≠ B.height) :
    compareVisualCore A B grid thr = [] ∧
    ∀ (s : EngineState) (page : Nat) (d1 d2 : Doc),
      s.doc1 = some d1 → s.doc2 = some d2 →
      d1.render 1 page = A → d2.render 1 page = B →
      (compare_visual s page).diff_boxes = [] := by
  refine ⟨compareVisualCore_mismatch grid thr hdim, ?_⟩
  intro s page d1 d2 h1 h2 hA hB
  obtain ⟨sd1, sd2, sp1, sp2, sg, sb⟩ := s
  simp only at h1 h2
  subst h1
  subst h2
  simp only [compare_visual]
  split
  · rfl
  · simp only
    rw [hA, hB]
    exact compareVisualCore_mismatch _ _ hdim

/-- A 1×1 all-black test page wrapped as a document. -/
def docNarrow : Doc := ⟨1, fun _ _ => blackPage 1 1, fun _ => []⟩

/-- A 2×1 all-black test page wrapped as a document. -/
def docWide : Doc := ⟨1, fun _ _ => blackPage 2 1, fun _ => []⟩

/-- An engine with a 1×1 page in slot 1 and a 2×1 page in slot 2. -/
def engineMismatch : EngineState :=
  { initEngine with doc1 := some docNarrow, doc2 := some docWide }

/-- Witness for claim C2 at a concrete 1×1 versus 2×1 comparison. -/
theorem mismatch_no_regions_witness :
    compareVisualCore (blackPage 1 1) (blackPage 2 1) 5 20 = [] ∧
    (compare_visual engineMismatch 0).diff_boxes = [] := by
  have h := mismatch_no_regions (blackPage 1 1) (blackPage 2 1) 5 20 (Or.inl (by decide))
  exact ⟨h.1, h.2 engineMismatch 0 docNarrow docWide rfl rfl rfl rfl⟩

set_option maxRecDepth 1000000 in
/-- Witness for claim C4: the end-to-end scenario — two 100×100 pages
differing only on the block `[50,55)²` yield exactly the region
`(50, 50, 5, 5)` at grid 5 and threshold 20 — plus the cell
characterisation instantiated at that region. -/
theorem region_iff_cellMax_witness :
    compareVisualCore (whitePage 100 100) blockPage 5 20 = [⟨50, 50, 5, 5⟩] ∧
    ((⟨50, 50, 5, 5⟩ : Region) ∈ compareVisualCore (whitePage 100 100) blockPage 5 20 ↔
      ∃ cx cy, (⟨50, 50, 5, 5⟩ : Region) = ⟨cx * 5, cy * 5, 5, 5⟩ ∧
        cx * 5 < (whitePage 100 100).width ∧ cy * 5 < (whitePage 100 100).height ∧
        20 < cellMaxClipped (whitePage 100 100) blockPage 5 cx cy) :=
  ⟨by decide, region_iff_cellMax (whitePage 100 100) blockPage 5 20 (by decide) rfl rfl _⟩

/-- Claim C3 (counterexample): on `aEx = "qz"` against the 200-character
`bEx`, the code's `difflib` ratio is 0 because the autojunk heuristic
discards the popular character `'z'`, while the ratio `2*M/T` of the pure
Ratcliff/Obershelp matching blocks is `2*1/202 = 1/101` — the text
comparison does not return the Ratcliff/Obershelp ratio for every pair of
strings. -/
theorem text_ratio_cex :
    seqRatio aEx bEx = 0 ∧ specRatio aEx bEx = 1 / 101 ∧ (0 : ℚ) ≠ 1 / 101 :=
  ⟨seqRatioEx, specRatioEx, by norm_num⟩

/-- Amended claim C3: the text comparison returns `2*M/T` with `M` the
total matched length of `difflib`'s matcher; the ratio lies in `[0, 1]`,
equals 1 exactly for identical strings (including two empty strings),
equals 0 when exactly one string is empty, and `compareText("abc","abd")`
equals `2*2/6`; whenever the second string is shorter than 200 characters
the autojunk heuristic is inert and `M` is exactly the Ratcliff/Obershelp
matching total of the spec. -/
theorem text_ratio_spec (a b : List Char) :
    (0 ≤ seqRatio a b ∧ seqRatio a b ≤ 1) ∧
    (seqRatio a b = 1 ↔ a = b) ∧
    ((a = [] ∧ b ≠ []) ∨ (a ≠ [] ∧ b = []) → seqRatio a b = 0) ∧
    (b.length < 200 → seqRatio a b = specRatio a b) ∧
    seqRatio ("abc".data) ("abd".data) = 2 * 2 / 6 :=
  ⟨seqRatio_bounds a b, seqRatio_eq_one_iff a b, seqRatio_single_empty a b,
   seqRatio_autojunk_inert a b, text_abc_abd⟩

/-- Witness for the amended claim C3: the hypotheses discharged at concrete
strings — one string empty gives ratio 0, and for short strings the code's
ratio coincides with the spec's Ratcliff/Obershelp ratio. -/
theorem text_ratio_spec_witness :
    seqRatio [] ("x".data) = 0 ∧
    seqRatio ("ab".data) ("cd".data) = specRatio ("ab".data) ("cd".data) :=
  ⟨(text_ratio_spec [] ("x".data)).2.2.1 (Or.inl ⟨rfl, by decide⟩),
   (text_ratio_spec ("ab".data) ("cd".data)).2.2.2.1 (by decide)⟩

/-- Claim C5 (counterexample): at `opacityPercent = 1` the code's alpha
`int(1 * 2.55) = 2` differs from the claimed `round(1 * 2.55) = 3`
(exact-rational model of the float product). -/
theorem overlay_alpha_cex :
    (overlayDraw [⟨10, 10, 5, 5⟩] 1 1 true).map (fun d => d.alpha) = [2] ∧
    round ((1 : ℚ) * (51 / 20)) = 3 ∧ (2 : ℤ) ≠ 3 := by
  refine ⟨?_, ?_, by decide⟩
  · unfold overlayDraw
    rw [if_pos ⟨rfl, by simp, by omega⟩]
    simp only [List.map_cons, List.map_nil]
    have : ⌊((1 : Nat) : ℚ) * (51 / 20)⌋ = 2 := by
      rw [Int.floor_eq_iff]
      norm_num
    rw [this]
  · rw [round_eq, Int.floor_eq_iff]
    norm_num

/-- Amended claim C5: with a non-empty region set and positive opacity the
overlay draws one filled unstroked red rectangle per region at
`(x*scale, y*scale)` with size `(w*scale, h*scale)`, with alpha
`int(opacityPercent * 2.55)` — the truncation (floor) of the scaled
percentage, not its rounding. -/
theorem overlay_draw_spec (boxes : List Region) (scale : ℚ) (opacity : Nat)
    (hb : boxes ≠ []) (ho : 0 < opacity) :
    (overlayDraw boxes scale opacity true).length = boxes.length ∧
    ∀ r ∈ boxes,
      (⟨(r.x : ℚ) * scale, (r.y : ℚ) * scale, (r.w : ℚ) * scale, (r.h : ℚ) * scale,
        255, 0, 0, ⌊(opacity : ℚ) * (51 / 20)⌋⟩ : DrawnRect) ∈
        overlayDraw boxes scale opacity true := by
  unfold overlayDraw
  rw [if_pos ⟨rfl, hb, ho⟩]
  exact ⟨List.length_map _ _, fun r hr => List.mem_map_of_mem _ hr⟩

/-- Witness for the amended claim C5: the region `(10, 10, 5, 5)` at scale
2 and opacity 30 is drawn at `(20, 20, 10, 10)` with alpha
`int(30 * 2.55) = 76`. -/
theorem overlay_draw_spec_witness :
    ((⟨((10 : Nat) : ℚ) * 2, ((10 : Nat) : ℚ) * 2, ((5 : Nat) : ℚ) * 2, ((5 : Nat) : ℚ) * 2,
        255, 0, 0, ⌊((30 : Nat) : ℚ) * (51 / 20)⌋⟩ : DrawnRect) ∈
      overlayDraw [⟨10, 10, 5, 5⟩] 2 30 true) ∧
    ((10 : Nat) : ℚ) * 2 = 20 ∧ ((5 : Nat) : ℚ) * 2 = 10 ∧
    ⌊((30 : Nat) : ℚ) * (51 / 20)⌋ = 76 := by
  refine ⟨(overlay_draw_spec [⟨10, 10, 5, 5⟩] 2 30 (by simp) (by omega)).2
    ⟨10, 10, 5, 5⟩ (by simp), by norm_num, by norm_num, ?_⟩
  rw [Int.floor_eq_iff]
  norm_num

/-! ### Frame lemmas for the load/refresh logic -/

/-- `compare_visual` writes only `diff_boxes`: both document slots are
unchanged. -/
theorem compare_visual_preserves (s : EngineState) (page : Nat) :
    (compare_visual s page).doc1 = s.doc1 ∧ (compare_visual s page).doc2 = s.doc2 := by
  unfold compare_visual
  split
  · split <;> exact ⟨rfl, rfl⟩
  · exact ⟨rfl, rfl⟩

/-- `_refresh_comparison` never touches `total_pages` or the document
slots. -/
theorem refresh_preserves (w : WindowState) :
    (refreshComparison w).total_pages = w.total_pages ∧
    (refreshComparison w).engine.doc1 = w.engine.doc1 ∧
    (refreshComparison w).engine.doc2 = w.engine.doc2 := by
  unfold refreshComparison
  split
  · split
    · exact ⟨rfl, (compare_visual_preserves w.engine w.curr_page).1,
        (compare_visual_preserves w.engine w.curr_page).2⟩
    · exact ⟨rfl, rfl, rfl⟩
  · exact ⟨rfl, rfl, rfl⟩

/-- `is_ready` is exactly "both slots are set". -/
theorem is_ready_iff (s : EngineState) :
    is_ready s = true ↔ s.doc1.isSome = true ∧ s.doc2.isSome = true := by
  unfold is_ready
  rw [Bool.and_eq_true]

/-- `_load_file` characterised: the resulting document slots are those left
by `load_doc`, and `total_pages` is the min of the two lengths when the
engine is ready afterwards, their max otherwise. -/
theorem loadFile_char (openF : String → Doc) (w : WindowState) (slot : Slot) (path : String) :
    (loadFile openF w slot path).engine.doc1 = (load_doc openF w.engine slot path).1.doc1 ∧
    (loadFile openF w slot path).engine.doc2 = (load_doc openF w.engine slot path).1.doc2 ∧
    (loadFile openF w slot path).total_pages =
      (if is_ready (load_doc openF w.engine slot path).1 then
        min (docLen (load_doc openF w.engine slot path).1.doc1)
            (docLen (load_doc openF w.engine slot path).1.doc2)
      else
        max (docLen (load_doc openF w.engine slot path).1.doc1)
            (docLen (load_doc openF w.engine slot path).1.doc2)) := by
  unfold loadFile
  split
  · rename_i hr
    rw [if_pos hr]
    exact ⟨(refresh_preserves _).2.1, (refresh_preserves _).2.2, (refresh_preserves _).1⟩
  · rename_i hr
    rw [if_neg hr]
    exact ⟨rfl, rfl, rfl⟩

/-- Claim C7 (counterexample): `compare_text` null-dereferences on an unset
slot — with no document loaded, `len(self.docs[1])` is `len(None)` and
raises `TypeError`; with only slot 1 loaded and the page in range,
`len(self.docs[2])` raises the same way.  The call is not a no-op that
treats the unset slot as empty. -/
theorem compare_text_null_deref_cex :
    compare_text initEngine 0 = .error .nullDeref ∧
    compare_text { initEngine with doc1 := some docNarrow } 0 = .error .nullDeref :=
  ⟨rfl, rfl⟩

/-- Amended claim C7: the visual pipeline is defensive — `_refresh_comparison`
is a no-op unless both slots are loaded, `compare_visual` with an unset slot
only clears the cache, and `get_pixmap` of an unset slot returns `None` —
but `compare_text` raises `TypeError` (`len(None)`) when slot 1 is unset,
and also when slot 1 is loaded with the page in range and slot 2 is
unset. -/
theorem unset_slot_defensive (w : WindowState) (s : EngineState) (page : Nat)
    (slot : Slot) (scale : ℚ) (opacity : Nat) (sd : Bool) :
    (is_ready w.engine = false → refreshComparison w = w) ∧
    (s.doc1 = none ∨ s.doc2 = none → compare_visual s page = { s with diff_boxes := [] }) ∧
    ((match slot with | Slot.one => s.doc1 | Slot.two => s.doc2) = none →
      get_pixmap s slot page scale opacity sd = none) ∧
    (s.doc1 = none → compare_text s page = .error .nullDeref) ∧
    (∀ d1 : Doc, s.doc1 = some d1 → page < d1.pages → s.doc2 = none →
      compare_text s page = .error .nullDeref) := by
  refine ⟨?_, ?_, ?_, ?_, ?_⟩
  · intro h
    unfold refreshComparison
    rw [h]
    rfl
  · intro h
    unfold compare_visual
    rcases h with h | h
    · rw [h]
    · rw [h]
      cases s.doc1 <;> rfl
  · intro h
    unfold get_pixmap
    rw [h]
  · intro h
    unfold compare_text
    rw [h]
  · intro d1 h1 hp h2
    obtain ⟨sd1, sd2, sp1, sp2, sg, sb⟩ := s
    simp only at h1 h2
    subst h1
    subst h2
    simp only [compare_text]
    rw [if_neg (Nat.not_le.mpr hp)]

/-- Witness for the amended claim C7 at concrete states: the fresh window
and engine, and an engine with only slot 1 loaded. -/
theorem unset_slot_defensive_witness :
    refreshComparison initWindow = initWindow ∧
    compare_visual initEngine 0 = { initEngine with diff_boxes := [] } ∧
    get_pixmap initEngine Slot.one 0 1 30 true = none ∧
    compare_text initEngine 0 = Except.error EngineError.nullDeref ∧
    compare_text { initEngine with doc1 := some docNarrow } 0 =
      Except.error EngineError.nullDeref :=
  ⟨(unset_slot_defensive initWindow initEngine 0 Slot.one 1 30 true).1 rfl,
   (unset_slot_defensive initWindow initEngine 0 Slot.one 1 30 true).2.1 (Or.inl rfl),
   (unset_slot_defensive initWindow initEngine 0 Slot.one 1 30 true).2.2.1 rfl,
   (unset_slot_defensive initWindow initEngine 0 Slot.one 1 30 true).2.2.2.1 rfl,
   (unset_slot_defensive initWindow { initEngine with doc1 := some docNarrow } 0
      Slot.one 1 30 true).2.2.2.2 docNarrow rfl (by decide) rfl⟩

/-- Claim C8: after `_load_file` into either slot, `total_pages` is
`min` of the two page counts when both slots are loaded and `max` — i.e.
the loaded slot's page count — when not; the load always leaves at least
one slot set, and the fresh window starts at `total_pages = 0` with both
slots unset. -/
theorem total_pages_recomputed (openF : String → Doc) (w : WindowState)
    (slot : Slot) (path : String) :
    ((loadFile openF w slot path).engine.doc1.isSome ∧
        (loadFile openF w slot path).engine.doc2.isSome →
      (loadFile openF w slot path).total_pages =
        min (docLen (loadFile openF w slot path).engine.doc1)
            (docLen (loadFile openF w slot path).engine.doc2)) ∧
    (¬ ((loadFile openF w slot path).engine.doc1.isSome ∧
        (loadFile openF w slot path).engine.doc2.isSome) →
      (loadFile openF w slot path).total_pages =
        max (docLen (loadFile openF w slot path).engine.doc1)
            (docLen (loadFile openF w slot path).engine.doc2) ∧
      ∀ d : Doc, ((loadFile openF w slot path).engine.doc1 = some d ∨
          (loadFile openF w slot path).engine.doc2 = some d) →
        (loadFile openF w slot path).total_pages = d.pages) ∧
    ¬ ((loadFile openF w slot path).engine.doc1 = none ∧
        (loadFile openF w slot path).engine.doc2 = none) ∧
    initWindow.total_pages = 0 ∧ initEngine.doc1 = none ∧ initEngine.doc2 = none := by
  obtain ⟨h1, h2, h3⟩ := loadFile_char openF w slot path
  rw [h1, h2, h3]
  set e := (load_doc openF w.engine slot path).1 with he
  refine ⟨?_, ?_, ?_, rfl, rfl, rfl⟩
  · intro hs
    rw [if_pos ((is_ready_iff e).mpr hs)]
  · intro hs
    have hnr : is_ready e ≠ true := fun hc => hs ((is_ready_iff e).mp hc)
    rw [if_neg hnr]
    refine ⟨rfl, ?_⟩
    intro d hd
    rcases hd with hd | hd
    · have h2n : e.doc2 = none := by
        cases hh : e.doc2 with
        | none => rfl
        | some d2 => exact absurd ⟨by rw [hd]; rfl, by rw [hh]; rfl⟩ hs
      rw [hd, h2n]
      simp [docLen]
    · have h1n : e.doc1 = none := by
        cases hh : e.doc1 with
        | none => rfl
        | some d1 => exact absurd ⟨by rw [hh]; rfl, by rw [hd]; rfl⟩ hs
      rw [hd, h1n]
      simp [docLen]
  · rintro ⟨ha, hb⟩
    cases slot with
    | one =>
      have hs1 : e.doc1 = some (openF path) := by rw [he]; rfl
      rw [hs1] at ha
      exact Option.noConfusion ha
    | two =>
      have hs2 : e.doc2 = some (openF path) := by rw [he]; rfl
      rw [hs2] at hb
      exact Option.noConfusion hb

/-- A one-page opener for the load witnesses: every path opens the 1×1
black-page document. -/
def openF0 : String → Doc := fun _ => docNarrow

/-- Witness for claim C8: loading one document into the fresh window gives
`total_pages = 1` (that document's page count), and loading a second into
the other slot keeps `total_pages` at the min of the two lengths. -/
theorem total_pages_recomputed_witness :
    (loadFile openF0 initWindow Slot.one ("p")).total_pages = docNarrow.pages ∧
    (loadFile openF0 (loadFile openF0 initWindow Slot.one ("p")) Slot.two ("q")).total_pages =
      min (docLen (loadFile openF0 (loadFile openF0 initWindow Slot.one ("p"))
              Slot.two ("q")).engine.doc1)
          (docLen (loadFile openF0 (loadFile openF0 initWindow Slot.one ("p"))
              Slot.two ("q")).engine.doc2) :=
  ⟨((total_pages_recomputed openF0 initWindow Slot.one ("p")).2.1 (by decide)).2 docNarrow
      (Or.inl rfl),
   (total_pages_recomputed openF0 (loadFile openF0 initWindow Slot.one ("p"))
      Slot.two ("q")).1 (by decide)⟩

/-- Claim C10: `load_doc` writes only the chosen slot's document handle and
path — the other slot's document and path, the grid size and the cached
diff rectangles are unchanged — and returns the opened document's page
count. -/
theorem load_doc_frame (openF : String → Doc) (s : EngineState) (slot : Slot) (path : String) :
    (load_doc openF s slot path).1.grid_size = s.grid_size ∧
    (load_doc openF s slot path).1.diff_boxes = s.diff_boxes ∧
    (load_doc openF s slot path).2 = (openF path).pages ∧
    (slot = Slot.one →
      (load_doc openF s slot path).1.doc1 = some (openF path) ∧
      (load_doc openF s slot path).1.path1 = path ∧
      (load_doc openF s slot path).1.doc2 = s.doc2 ∧
      (load_doc openF s slot path).1.path2 = s.path2) ∧
    (slot = Slot.two →
      (load_doc openF s slot path).1.doc2 = some (openF path) ∧
      (load_doc openF s slot path).1.path2 = path ∧
      (load_doc openF s slot path).1.doc1 = s.doc1 ∧
      (load_doc openF s slot path).1.path1 = s.path1) := by
  cases slot <;> simp [load_doc]

/-- Witness for claim C10 at a concrete load into slot 1 of the fresh
engine. -/
theorem load_doc_frame_witness :
    (load_doc openF0 initEngine Slot.one ("p")).1.grid_size = initEngine.grid_size ∧
    (load_doc openF0 initEngine Slot.one ("p")).2 = (openF0 ("p")).pages ∧
    (load_doc openF0 initEngine Slot.one ("p")).1.doc1 = some (openF0 ("p")) ∧
    (load_doc openF0 initEngine Slot.one ("p")).1.doc2 = initEngine.doc2 :=
  ⟨(load_doc_frame openF0 initEngine Slot.one ("p")).1,
   (load_doc_frame openF0 initEngine Slot.one ("p")).2.2.1,
   ((load_doc_frame openF0 initEngine Slot.one ("p")).2.2.2.1 rfl).1,
   ((load_doc_frame openF0 initEngine Slot.one ("p")).2.2.2.1 rfl).2.2.1⟩
